import Mathlib

/-!
Verification development for the MiniChess program
(`src/MiniChessSkeletonCode.py`): a 5×5 chess variant with a legal-move
generator, a move applicator with terminal-condition detection, static
evaluators, and a minimax / alpha-beta search engine.

The Python dictionaries and string piece tokens (`'.'`, `'wp'`, `'bK'`, …)
are embedded as a structure `GameState` over an inductive square type `Sq`;
`piece[0]` (the colour character) corresponds to `sqColor`, `piece[1]` (the
kind character) to the `Kind` component.  Board coordinates are `Int`
throughout, as in the Python source where candidate coordinates such as
`row_index - 1` may be negative before being checked by
`is_valid_coordinate`.
-/

set_option linter.unusedVariables false

namespace MiniChess

inductive Color where
  | white
  | black
deriving DecidableEq, Repr

inductive Kind where
  | pawn
  | knight
  | bishop
  | queen
  | king
deriving DecidableEq, Repr

/-- A board square: either the empty marker `'.'` or a piece token such as
`'wp'`, carrying the colour character and the kind character. -/
inductive Sq where
  | empty
  | piece (c : Color) (k : Kind)
deriving DecidableEq, Repr

/-- `piece[0]` of a square's token: `none` for `'.'`, otherwise the colour. -/
def sqColor : Sq → Option Color
  | .empty => none
  | .piece c _ => some c

def wp : Sq := Sq.piece .white .pawn
def wN : Sq := Sq.piece .white .knight
def wB : Sq := Sq.piece .white .bishop
def wQ : Sq := Sq.piece .white .queen
def wK : Sq := Sq.piece .white .king
def bp : Sq := Sq.piece .black .pawn
def bN : Sq := Sq.piece .black .knight
def bB : Sq := Sq.piece .black .bishop
def bQ : Sq := Sq.piece .black .queen
def bK : Sq := Sq.piece .black .king

abbrev Board := List (List Sq)

/-- A move `((start_row, start_col), (end_row, end_col))`, a pair of int
pairs exactly as in the Python source. -/
abbrev Move := (Int × Int) × (Int × Int)

/-- The game-state dictionary of the Python source, with a fixed shape. -/
structure GameState where
  board : Board
  turn : Color
  game_over_reason : String
  turn_number : Int
  turns_without_capture : Int
  turn_no_capture : Bool
deriving DecidableEq

/-- `init_board`: the fixed starting position, white to move. -/
def init_board : GameState :=
  { board :=
      [[bK, bQ, bB, bN, .empty],
       [.empty, .empty, bp, bp, .empty],
       [.empty, .empty, .empty, .empty, .empty],
       [.empty, wp, wp, .empty, .empty],
       [.empty, wN, wB, wQ, wK]],
    turn := .white,
    game_over_reason := "",
    turn_number := 1,
    turns_without_capture := 0,
    turn_no_capture := false }

/-- `is_valid_coordinate`: both indices strictly between `-1` and `5`. -/
def is_valid_coordinate (r c : Int) : Bool :=
  decide (-1 < r ∧ r < 5 ∧ -1 < c ∧ c < 5)

/-- Reading `board[r][c]`.  Out-of-range access is totalised with the empty
marker; claim C7 shows that every access made by the move generator is
guarded by `is_valid_coordinate`, so on well-formed boards the default is
never consulted. -/
def bget (b : Board) (r c : Int) : Sq :=
  if 0 ≤ r ∧ 0 ≤ c then ((b.getD r.toNat []).getD c.toNat Sq.empty) else Sq.empty

/-- Writing `board[r][c] = v` (identity when out of range; all uses in the
claims are at coordinates validated by `is_valid_coordinate`). -/
def bset (b : Board) (r c : Int) (v : Sq) : Board :=
  if 0 ≤ r ∧ 0 ≤ c then b.set r.toNat ((b.getD r.toNat []).set c.toNat v) else b

/-- The knight offsets, in the source's order. -/
def knightDirs : List (Int × Int) :=
  [(-1, -2), (-1, 2), (1, -2), (1, 2), (-2, -1), (-2, 1), (2, -1), (2, 1)]

/-- The 8 unit directions, in the source's order (used for queen and king). -/
def eightDirs : List (Int × Int) :=
  [(-1, -1), (-1, 0), (-1, 1), (0, -1), (0, 1), (1, -1), (1, 0), (1, 1)]

/-- The 4 diagonal unit directions, in the source's order (bishop). -/
def diagDirs : List (Int × Int) :=
  [(-1, -1), (-1, 1), (1, -1), (1, 1)]

/-- The pawn block of `valid_moves`: one forward step onto an empty square,
then the two diagonal captures, in source order. -/
def pawnMoves (s : GameState) (ri ci : Int) : List Move :=
  let er := if s.turn = .white then ri - 1 else ri + 1
  (if is_valid_coordinate er ci ∧ bget s.board er ci = Sq.empty then
      [((ri, ci), (er, ci))]
    else []) ++
  (([-1, 1] : List Int).flatMap fun cd =>
    let dc := ci + cd
    if is_valid_coordinate er dc ∧ bget s.board er dc ≠ Sq.empty ∧
        sqColor (bget s.board er dc) ≠ some s.turn then
      [((ri, ci), (er, dc))]
    else [])

/-- The knight/king block of `valid_moves`: filter the offset list by
on-board and not-friendly, keeping the source's offset order. -/
def stepMoves (s : GameState) (dirs : List (Int × Int)) (ri ci : Int) : List Move :=
  (dirs.filter fun d =>
      is_valid_coordinate (ri + d.1) (ci + d.2) &&
      decide (sqColor (bget s.board (ri + d.1) (ci + d.2)) ≠ some s.turn)).map
    fun d => ((ri, ci), (ri + d.1, ci + d.2))

/-- The sliding `while` loop of `valid_moves` for one ray: while the target
square is on-board and not friendly, append the move, and break after
appending a non-empty (capture) destination.  The loop advances by a
non-zero unit direction from an on-board start, so on the 5×5 board it runs
at most 5 iterations; the fuel of 10 used by `slide` is therefore never
exhausted there. -/
def slideAux (b : Board) (t : Color) (start : Int × Int) (dr dc : Int) :
    Nat → Int → Int → List Move
  | 0, _, _ => []
  | fuel + 1, er, ec =>
    if is_valid_coordinate er ec ∧ sqColor (bget b er ec) ≠ some t then
      (start, (er, ec)) ::
        (if bget b er ec ≠ Sq.empty then []
         else slideAux b t start dr dc fuel (er + dr) (ec + dc))
    else []

/-- One full ray for a sliding piece, starting one step from the piece. -/
def slide (b : Board) (t : Color) (start : Int × Int) (d : Int × Int) : List Move :=
  slideAux b t start d.1 d.2 10 (start.1 + d.1) (start.2 + d.2)

/-- The per-square dispatch of `valid_moves`: only pieces of the side to
move generate moves, by kind. -/
def pieceMoves (s : GameState) (ri ci : Int) (p : Sq) : List Move :=
  match p with
  | Sq.empty => []
  | Sq.piece c k =>
    if c = s.turn then
      match k with
      | .pawn => pawnMoves s ri ci
      | .knight => stepMoves s knightDirs ri ci
      | .bishop => diagDirs.flatMap (slide s.board s.turn (ri, ci))
      | .queen => eightDirs.flatMap (slide s.board s.turn (ri, ci))
      | .king => stepMoves s eightDirs ri ci
    else []

/-- `valid_moves`: scan the board in row-major order and collect the moves
of every piece of the side to move. -/
def valid_moves (s : GameState) : List Move :=
  s.board.enum.flatMap fun rp =>
    rp.2.enum.flatMap fun cp =>
      pieceMoves s (rp.1 : Int) (cp.1 : Int) cp.2

/-- `is_valid_move`: membership in the generated move list. -/
def is_valid_move (s : GameState) (m : Move) : Bool :=
  decide (m ∈ valid_moves s)

/-- The capture-bookkeeping block of `make_move`: returns the new
`(turn_no_capture, turns_without_capture)` pair.  A white non-capturing
move raises the flag; a capture by either side clears the flag and resets
the counter; a black non-capturing move increments the counter only when
the flag is raised (i.e. the white half of the turn also captured
nothing). -/
def mmCounter (s : GameState) (piece endPiece : Sq) : Bool × Int :=
  match sqColor piece with
  | some .white =>
    if endPiece = Sq.empty then (true, s.turns_without_capture)
    else (false, 0)
  | some .black =>
    if endPiece ≠ Sq.empty then (false, 0)
    else (s.turn_no_capture,
      if s.turn_no_capture then s.turns_without_capture + 1
      else s.turns_without_capture)
  | none => (s.turn_no_capture, s.turns_without_capture)

/-- `make_move`: move the piece, auto-promote pawns on the last rank,
update the no-capture bookkeeping, then check the terminal conditions in
priority order (king captured, max turns, no captures) — each terminal
branch returns without advancing `turn_number` or flipping `turn`.
`mt` is `self.max_turns`. -/
def make_move (mt : Int) (s : GameState) (mv : Move) : GameState :=
  let sr := mv.1.1
  let sc := mv.1.2
  let er := mv.2.1
  let ec := mv.2.2
  let piece := bget s.board sr sc
  let endPiece := bget s.board er ec
  let b1 := bset s.board sr sc Sq.empty
  let b2 := bset b1 er ec piece
  let b3 :=
    if piece = wp ∧ er = 0 then bset b2 er ec wQ
    else if piece = bp ∧ er = 4 then bset b2 er ec bQ
    else b2
  let tc := mmCounter s piece endPiece
  let s1 := { s with board := b3, turn_no_capture := tc.1,
                     turns_without_capture := tc.2 }
  if endPiece = bK ∨ endPiece = wK then
    { s1 with game_over_reason := "king captured" }
  else if s.turn_number = mt ∧ sqColor piece = some .black then
    { s1 with game_over_reason := "max turns" }
  else if tc.2 = 10 then
    { s1 with game_over_reason := "no captures" }
  else
    { s1 with
      turn_number := if sqColor piece = some .black then s.turn_number + 1
                     else s.turn_number,
      turn := if s.turn = .white then .black else .white }

/-- The piece-value table of `material_score`. -/
def pieceValue : Kind → Int
  | .pawn => 1
  | .bishop => 3
  | .knight => 3
  | .queen => 9
  | .king => 999

/-- `material_score`: accumulate white and black totals over the board and
return their difference (white minus black). -/
def material_score (s : GameState) : Int :=
  let acc := s.board.foldl
    (fun acc row => row.foldl
      (fun acc p =>
        match p with
        | Sq.piece .white k => (acc.1 + pieceValue k, acc.2)
        | Sq.piece .black k => (acc.1, acc.2 + pieceValue k)
        | Sq.empty => acc)
      acc)
    ((0 : Int), (0 : Int))
  acc.1 - acc.2

/-- Heuristic `e0`: the material score, ignoring the perspective argument. -/
def e0 (s : GameState) (t : Color) : Int := material_score s

/-- The king-location scan of `king_safety_score`: the Python loop keeps
overwriting, so the last matching square wins; `none` iff no king of the
given colour is on the board. -/
def kingCoord (b : Board) (t : Color) : Option (Int × Int) :=
  b.enum.foldl
    (fun acc rp => rp.2.enum.foldl
      (fun acc2 cp =>
        if cp.2 = Sq.piece t .king then some ((rp.1 : Int), (cp.1 : Int)) else acc2)
      acc)
    none

/-- The defender count of `king_safety_score`: pieces of colour `t` in the
rows satisfying `keep` (the Python source iterates those same rows and
increments a counter, so only the set of counted squares matters). -/
def countColorRows (b : Board) (keep : Int → Bool) (t : Color) : Int :=
  b.enum.foldl
    (fun n rp =>
      if keep (rp.1 : Int) then
        n + ((rp.2.filter fun p => decide (sqColor p = some t)).length : Int)
      else n)
    0

/-- `king_safety_score`: `-999` when the king is missing or (with the
opponent to move) capturable; otherwise `4 * defenders - 10` where the
defenders are own pieces between the king and its own back rank. -/
def king_safety_score (s : GameState) (t : Color) : Int :=
  match kingCoord s.board t with
  | none => -999
  | some kc =>
    if s.turn ≠ t ∧ (valid_moves s).any (fun mv => decide (kc = mv.2)) then -999
    else
      match t with
      | .white => 4 * countColorRows s.board (fun r => decide (r < kc.1)) .white - 10
      | .black => 4 * countColorRows s.board (fun r => decide (kc.1 < r)) .black - 10

/-- Heuristic `e1`: king safety plus the material score signed for the
perspective. -/
def e1 (s : GameState) (t : Color) : Int :=
  king_safety_score s t +
    (if t = .white then material_score s else -material_score s)


/-! ### Spec-side restatements used for refinement-style claims -/

/-- The value a square contributes to white's material total. -/
def sqWhiteVal (p : Sq) : Int :=
  match p with
  | Sq.piece .white k => pieceValue k
  | _ => 0

/-- The value a square contributes to black's material total. -/
def sqBlackVal (p : Sq) : Int :=
  match p with
  | Sq.piece .black k => pieceValue k
  | _ => 0

/-- Modelled from the spec's words: "sum of white piece values". -/
def whiteSum (s : GameState) : Int := (s.board.flatten.map sqWhiteVal).sum

/-- Modelled from the spec's words: "sum of black piece values". -/
def blackSum (s : GameState) : Int := (s.board.flatten.map sqBlackVal).sum

lemma material_row_foldl (row : List Sq) (a : Int × Int) :
    row.foldl
      (fun acc p =>
        match p with
        | Sq.piece .white k => (acc.1 + pieceValue k, acc.2)
        | Sq.piece .black k => (acc.1, acc.2 + pieceValue k)
        | Sq.empty => acc)
      a =
    (a.1 + (row.map sqWhiteVal).sum, a.2 + (row.map sqBlackVal).sum) := by
  induction row generalizing a with
  | nil => simp
  | cons p rest ih =>
    cases p with
    | empty => simp [List.foldl_cons, ih, sqWhiteVal, sqBlackVal]
    | piece c k =>
      cases c <;>
        simp [List.foldl_cons, ih, sqWhiteVal, sqBlackVal, add_assoc]

lemma material_board_foldl (rows : List (List Sq)) (a : Int × Int) :
    rows.foldl
      (fun acc row => row.foldl
        (fun acc p =>
          match p with
          | Sq.piece .white k => (acc.1 + pieceValue k, acc.2)
          | Sq.piece .black k => (acc.1, acc.2 + pieceValue k)
          | Sq.empty => acc)
        acc)
      a =
    (a.1 + (rows.flatten.map sqWhiteVal).sum, a.2 + (rows.flatten.map sqBlackVal).sum) := by
  induction rows generalizing a with
  | nil => simp
  | cons row rest ih =>
    simp only [List.foldl_cons]
    rw [material_row_foldl, ih]
    simp [add_assoc]

lemma material_score_eq (s : GameState) :
    material_score s = whiteSum s - blackSum s := by
  simp [material_score, whiteSum, blackSum, material_board_foldl]

/-- C6: the material evaluator `e0` ignores its perspective argument, and
always returns the white material total minus the black material total
(pawn 1, knight 3, bishop 3, queen 9, king 999); its sign therefore means
white-is-ahead no matter which side asks. -/
theorem e0_ignores_perspective (s : GameState) (p1 p2 : Color) :
    e0 s p1 = e0 s p2 ∧ e0 s p1 = whiteSum s - blackSum s := by
  exact ⟨rfl, material_score_eq s⟩

lemma foldl_eq_init {α β : Type} (g : α → β → α) (l : List β) (a : α)
    (h : ∀ x ∈ l, ∀ acc, g acc x = acc) : l.foldl g a = a := by
  induction l generalizing a with
  | nil => rfl
  | cons x rest ih =>
    rw [List.foldl_cons, h x (by simp), ih]
    intro y hy acc
    exact h y (by simp [hy]) acc

lemma kingCoord_eq_none (b : Board) (t : Color)
    (h : ∀ row ∈ b, ∀ p ∈ row, p ≠ Sq.piece t .king) :
    kingCoord b t = none := by
  unfold kingCoord
  apply foldl_eq_init
  intro rp hrp acc
  apply foldl_eq_init
  intro cp hcp acc2
  have hrow : rp.2 ∈ b := List.getElem?_mem (List.mem_enum_iff_getElem?.1 hrp)
  have hp : cp.2 ∈ rp.2 := List.getElem?_mem (List.mem_enum_iff_getElem?.1 hcp)
  simp [h rp.2 hrow cp.2 hp]

/-- C9: when the board holds no king of the perspective's colour,
`king_safety_score` returns the losing value `-999`, and the `e1`
evaluator accordingly scores the state as `-999` plus the
perspective-signed material term. -/
theorem king_safety_score_no_king (s : GameState) (t : Color)
    (h : ∀ row ∈ s.board, ∀ p ∈ row, p ≠ Sq.piece t .king) :
    king_safety_score s t = -999 ∧
      e1 s t = -999 +
        (if t = .white then material_score s else -material_score s) := by
  have hk : king_safety_score s t = -999 := by
    unfold king_safety_score
    rw [kingCoord_eq_none s.board t h]
  exact ⟨hk, by unfold e1; rw [hk]⟩

/-- A state whose board holds a lone black pawn (no white king at all). -/
def noKingState : GameState :=
  { board :=
      [[.empty, .empty, .empty, .empty, .empty],
       [.empty, bp, .empty, .empty, .empty],
       [.empty, .empty, .empty, .empty, .empty],
       [.empty, .empty, .empty, .empty, .empty],
       [.empty, .empty, .empty, .empty, .empty]],
    turn := .black,
    game_over_reason := "",
    turn_number := 1,
    turns_without_capture := 0,
    turn_no_capture := false }

/-- Witness for C9 at a concrete kingless state. -/
theorem king_safety_score_no_king_witness :
    king_safety_score noKingState .white = -999 ∧
      e1 noKingState .white = -999 +
        (if Color.white = .white then material_score noKingState
         else -material_score noKingState) :=
  king_safety_score_no_king noKingState .white (by decide)

/-! ### C4: terminal-condition priority in `make_move` -/

/-- C4: `make_move` evaluates its terminal conditions in priority order —
king captured, then max turns, then no captures — and whenever one of them
fires (in particular when the destination piece is a king) the
`game_over_reason` is set accordingly while `turn` and `turn_number` keep
their pre-move values. -/
theorem make_move_terminal_priority (mt : Int) (s : GameState) (mv : Move) :
    ((bget s.board mv.2.1 mv.2.2 = bK ∨ bget s.board mv.2.1 mv.2.2 = wK) →
      (make_move mt s mv).game_over_reason = "king captured" ∧
      (make_move mt s mv).turn = s.turn ∧
      (make_move mt s mv).turn_number = s.turn_number) ∧
    (¬ (bget s.board mv.2.1 mv.2.2 = bK ∨ bget s.board mv.2.1 mv.2.2 = wK) →
      (s.turn_number = mt ∧
          sqColor (bget s.board mv.1.1 mv.1.2) = some .black) →
      (make_move mt s mv).game_over_reason = "max turns" ∧
      (make_move mt s mv).turn = s.turn ∧
      (make_move mt s mv).turn_number = s.turn_number) ∧
    (¬ (bget s.board mv.2.1 mv.2.2 = bK ∨ bget s.board mv.2.1 mv.2.2 = wK) →
      ¬ (s.turn_number = mt ∧
          sqColor (bget s.board mv.1.1 mv.1.2) = some .black) →
      (mmCounter s (bget s.board mv.1.1 mv.1.2)
          (bget s.board mv.2.1 mv.2.2)).2 = 10 →
      (make_move mt s mv).game_over_reason = "no captures" ∧
      (make_move mt s mv).turn = s.turn ∧
      (make_move mt s mv).turn_number = s.turn_number) := by
  refine ⟨fun hk => ?_, fun hk hm => ?_, fun hk hm hc => ?_⟩
  · simp [make_move, hk]
  · simp [make_move, hk, hm]
  · simp [make_move, hk, hm, hc]

/-- A position in which black's move captures the white king. -/
def kingCaptureState : GameState :=
  { board :=
      [[bK, .empty, .empty, .empty, .empty],
       [.empty, .empty, .empty, .empty, .empty],
       [.empty, .empty, .empty, .empty, .empty],
       [.empty, .empty, .empty, .empty, bQ],
       [.empty, .empty, .empty, .empty, wK]],
    turn := .black,
    game_over_reason := "",
    turn_number := 3,
    turns_without_capture := 2,
    turn_no_capture := true }

/-- Witness for C4: black queen takes the white king; the game ends with
reason "king captured" and neither `turn` nor `turn_number` changes. -/
theorem make_move_terminal_priority_witness :
    (make_move 100 kingCaptureState ((3, 4), (4, 4))).game_over_reason =
        "king captured" ∧
      (make_move 100 kingCaptureState ((3, 4), (4, 4))).turn =
        kingCaptureState.turn ∧
      (make_move 100 kingCaptureState ((3, 4), (4, 4))).turn_number =
        kingCaptureState.turn_number :=
  (make_move_terminal_priority 100 kingCaptureState ((3, 4), (4, 4))).1
    (by decide)

/-! ### C3: the no-capture counter (corrected) -/

/-- A live position with black to move, `turn_no_capture = false` (the
preceding white move captured), and counter 0. -/
def blackQuietState : GameState :=
  { board :=
      [[bK, .empty, .empty, .empty, .empty],
       [.empty, bp, .empty, .empty, .empty],
       [.empty, .empty, .empty, .empty, .empty],
       [.empty, .empty, .empty, .empty, .empty],
       [.empty, .empty, .empty, .empty, wK]],
    turn := .black,
    game_over_reason := "",
    turn_number := 1,
    turns_without_capture := 0,
    turn_no_capture := false }

/-- Counterexample to C3 as stated: a black move that captures nothing
(pawn B4 forward) leaves the counter at 0 instead of incrementing it,
because the `turn_no_capture` flag is down (the white half of the turn had
captured). -/
theorem black_quiet_move_not_incremented :
    sqColor (bget blackQuietState.board 1 1) = some .black ∧
      bget blackQuietState.board 2 1 = Sq.empty ∧
      (make_move 100 blackQuietState ((1, 1), (2, 1))).turns_without_capture ≠
        blackQuietState.turns_without_capture + 1 := by
  decide

/-- C3 (amended): for a move whose source square is occupied, the counter
resets to 0 on every capture; a black non-capturing move increments it by
one exactly when the `turn_no_capture` flag is up (i.e. the white half of
the turn also captured nothing) and leaves it unchanged otherwise; a white
non-capturing move leaves it unchanged; and when the updated counter
reaches the threshold 10 the game ends with reason "no captures" unless a
higher-priority terminal condition (king captured, max turns) fired. -/
theorem turns_without_capture_update (mt : Int) (s : GameState) (mv : Move)
    (hp : sqColor (bget s.board mv.1.1 mv.1.2) ≠ none) :
    (bget s.board mv.2.1 mv.2.2 ≠ Sq.empty →
      (make_move mt s mv).turns_without_capture = 0) ∧
    (sqColor (bget s.board mv.1.1 mv.1.2) = some .black →
      bget s.board mv.2.1 mv.2.2 = Sq.empty →
      (make_move mt s mv).turns_without_capture =
        (if s.turn_no_capture then s.turns_without_capture + 1
         else s.turns_without_capture)) ∧
    (sqColor (bget s.board mv.1.1 mv.1.2) = some .white →
      bget s.board mv.2.1 mv.2.2 = Sq.empty →
      (make_move mt s mv).turns_without_capture = s.turns_without_capture) ∧
    (¬ (bget s.board mv.2.1 mv.2.2 = bK ∨ bget s.board mv.2.1 mv.2.2 = wK) →
      ¬ (s.turn_number = mt ∧
          sqColor (bget s.board mv.1.1 mv.1.2) = some .black) →
      (make_move mt s mv).turns_without_capture = 10 →
      (make_move mt s mv).game_over_reason = "no captures") := by
  have hcounter : (make_move mt s mv).turns_without_capture =
      (mmCounter s (bget s.board mv.1.1 mv.1.2)
        (bget s.board mv.2.1 mv.2.2)).2 := by
    simp only [make_move]
    split <;> [skip; split <;> [skip; split]] <;> rfl
  refine ⟨fun hcap => ?_, fun hb he => ?_, fun hw he => ?_, fun hk hm hc => ?_⟩
  · rw [hcounter]
    rcases hq : sqColor (bget s.board mv.1.1 mv.1.2) with _ | c
    · exact absurd hq hp
    · cases c <;> simp [mmCounter, hq, hcap]
  · rw [hcounter]
    simp [mmCounter, hb, he]
  · rw [hcounter]
    simp [mmCounter, hw, he]
  · rw [hcounter] at hc
    simp [make_move, hk, hm, hc]

/-- Witness for C3 (amended): a black pawn move onto an empty square with
the flag up increments the counter from 4 to 5. -/
def blackFlagUpState : GameState :=
  { blackQuietState with turns_without_capture := 4, turn_no_capture := true }

theorem turns_without_capture_update_witness :
    (make_move 100 blackFlagUpState ((1, 1), (2, 1))).turns_without_capture =
      (if blackFlagUpState.turn_no_capture then
        blackFlagUpState.turns_without_capture + 1
       else blackFlagUpState.turns_without_capture) :=
  (turns_without_capture_update 100 blackFlagUpState ((1, 1), (2, 1))
      (by decide)).2.1 (by decide) (by decide)

/-! ### C8: algebraic notation round trip -/

/-- Python's `str.split()` on the strings produced here (whitespace =
the space character): split into maximal runs of non-space characters. -/
def pySplit : List Char → List Char → List (List Char)
  | [], acc => if acc.isEmpty then [] else [acc.reverse]
  | c :: rest, acc =>
    if c = ' ' then
      if acc.isEmpty then pySplit rest [] else acc.reverse :: pySplit rest []
    else pySplit rest (c :: acc)

/-- Python `int(c)` on a single character: its value for an ASCII digit,
failure otherwise. -/
def charDigitVal (c : Char) : Option Int :=
  if c.isDigit then some ((c.toNat : Int) - 48) else none

/-- The `column_translation` dictionary of `get_readable_move`
(`KeyError` = `none`). -/
def column_translation (c : Int) : Option Char :=
  if c = 0 then some 'A'
  else if c = 1 then some 'B'
  else if c = 2 then some 'C'
  else if c = 3 then some 'D'
  else if c = 4 then some 'E'
  else none

/-- `get_readable_move`: column letter followed by rank `5 - row`, for the
start and end squares, separated by a space. -/
def get_readable_move (m : Move) : Option String :=
  match column_translation m.1.2, column_translation m.2.2 with
  | some a, some b =>
    some (String.mk
      (a :: (toString (5 - m.1.1)).data ++
        (' ' :: b :: (toString (5 - m.2.1)).data)))
  | _, _ => none

/-- `parse_input`: split into exactly two tokens, read the rank digit at
index 1 and the (upper-cased) column letter at index 0 of each token;
any failure (wrong token count, missing character, non-digit rank)
returns `none`, as the Python `except` clause does. -/
def parse_input (mv : String) : Option Move :=
  match pySplit mv.data [] with
  | [st, en] =>
    match st[0]?, st[1]?, en[0]?, en[1]? with
    | some s0, some s1, some t0, some t1 =>
      match charDigitVal s1, charDigitVal t1 with
      | some d1, some d2 =>
        some ((5 - d1, (s0.toUpper.toNat : Int) - 65),
              (5 - d2, (t0.toUpper.toNat : Int) - 65))
      | _, _ => none
    | _, _, _, _ => none
  | _ => none

/-- C8: converting any of the 25×25 ordered square pairs to algebraic
notation and parsing it back is the identity (column letter A–E ↔ index
0–4, rank 1–5 ↔ row 4–0). -/
theorem readable_move_round_trip :
    ∀ r1 c1 r2 c2 : Fin 5,
      (get_readable_move
          (((r1.val : Int), (c1.val : Int)),
            ((r2.val : Int), (c2.val : Int)))).bind parse_input =
        some (((r1.val : Int), (c1.val : Int)),
          ((r2.val : Int), (c2.val : Int))) := by
  decide

/-! ### C5: sliding rays stop at the first occupied square -/

lemma slideAux_ray (b : Board) (t : Color) (start : Int × Int) (dr dc : Int)
    (k : Nat) :
    ∀ (fuel : Nat) (er ec : Int), k < fuel →
    (∀ i : Nat, i < k →
      is_valid_coordinate (er + (i : Int) * dr) (ec + (i : Int) * dc) = true ∧
      bget b (er + (i : Int) * dr) (ec + (i : Int) * dc) = Sq.empty) →
    is_valid_coordinate (er + (k : Int) * dr) (ec + (k : Int) * dc) = true →
    ((bget b (er + (k : Int) * dr) (ec + (k : Int) * dc) ≠ Sq.empty ∧
        sqColor (bget b (er + (k : Int) * dr) (ec + (k : Int) * dc)) ≠ some t →
      slideAux b t start dr dc fuel er ec =
        (List.range (k + 1)).map
          (fun i : Nat => (start, (er + (i : Int) * dr, ec + (i : Int) * dc)))) ∧
     (sqColor (bget b (er + (k : Int) * dr) (ec + (k : Int) * dc)) = some t →
      slideAux b t start dr dc fuel er ec =
        (List.range k).map
          (fun i : Nat => (start, (er + (i : Int) * dr, ec + (i : Int) * dc))))) := by
  induction k with
  | zero =>
    intro fuel er ec hfuel hmid hval
    obtain ⟨f, rfl⟩ : ∃ f, fuel = f + 1 := ⟨fuel - 1, by omega⟩
    simp only [Nat.cast_zero, zero_mul, add_zero] at hval ⊢
    constructor
    · intro hen
      simp [slideAux, hval, hen.1, hen.2, List.range_succ]
    · intro hcol
      simp [slideAux, hcol]
  | succ k ih =>
    intro fuel er ec hfuel hmid hval
    obtain ⟨f, rfl⟩ : ∃ f, fuel = f + 1 := ⟨fuel - 1, by omega⟩
    have h0 := hmid 0 (by omega)
    simp only [Nat.cast_zero, zero_mul, add_zero] at h0
    have hguard : is_valid_coordinate er ec = true ∧
        sqColor (bget b er ec) ≠ some t := by
      refine ⟨h0.1, ?_⟩
      rw [h0.2]
      exact fun hco => Option.noConfusion hco
    have hmid' : ∀ i : Nat, i < k →
        is_valid_coordinate (er + dr + (i : Int) * dr)
          (ec + dc + (i : Int) * dc) = true ∧
        bget b (er + dr + (i : Int) * dr) (ec + dc + (i : Int) * dc) = Sq.empty := by
      intro i hi
      have h1 := hmid (i + 1) (by omega)
      rw [show er + ((i + 1 : Nat) : Int) * dr = er + dr + (i : Int) * dr by
            push_cast; ring,
          show ec + ((i + 1 : Nat) : Int) * dc = ec + dc + (i : Int) * dc by
            push_cast; ring] at h1
      exact h1
    have hposr : er + ((k + 1 : Nat) : Int) * dr = er + dr + (k : Int) * dr := by
      push_cast; ring
    have hposc : ec + ((k + 1 : Nat) : Int) * dc = ec + dc + (k : Int) * dc := by
      push_cast; ring
    rw [hposr, hposc] at hval ⊢
    have ihf := ih f (er + dr) (ec + dc) (by omega) hmid' hval
    have hstep : slideAux b t start dr dc (f + 1) er ec =
        (start, (er, ec)) :: slideAux b t start dr dc f (er + dr) (ec + dc) := by
      simp [slideAux, hguard.1, h0.2, show sqColor Sq.empty = none from rfl]
    have hmapshift : ∀ n : Nat,
        (List.range (n + 1)).map
            (fun i : Nat => (start, (er + (i : Int) * dr, ec + (i : Int) * dc))) =
          (start, (er, ec)) ::
            (List.range n).map
              (fun i : Nat =>
                (start, (er + dr + (i : Int) * dr, ec + dc + (i : Int) * dc))) := by
      intro n
      rw [List.range_succ_eq_map, List.map_cons, List.map_map]
      refine congrArg₂ List.cons (by simp) ?_
      apply List.map_congr_left
      intro i hi
      show (start, (er + ((i + 1 : Nat) : Int) * dr,
            ec + ((i + 1 : Nat) : Int) * dc)) =
          (start, (er + dr + (i : Int) * dr, ec + dc + (i : Int) * dc))
      rw [show er + ((i + 1 : Nat) : Int) * dr = er + dr + (i : Int) * dr by
            push_cast; ring,
          show ec + ((i + 1 : Nat) : Int) * dc = ec + dc + (i : Int) * dc by
            push_cast; ring]
    constructor
    · intro hen
      rw [hstep, ihf.1 hen, hmapshift (k + 1)]
    · intro hcol
      rw [hstep, ihf.2 hcol, hmapshift k]

/-- C5: along a ray of a sliding piece (as generated by the `slide` loop
used for bishops and queens), if the first `k` squares are on-board and
empty and square `k + 1` is on-board, then (a) when that square holds an
enemy piece it is itself appended as a destination and the ray stops
there — the output is exactly the `k + 1` squares up to and including the
capture, with nothing beyond — and (b) when it holds a friendly piece the
ray stops without appending it — the output is exactly the `k` empty
squares before it. -/
theorem sliding_ray_capture_and_block (b : Board) (t : Color)
    (sr sc dr dc : Int) (k : Nat) (hk : k < 10)
    (hmid : ∀ i : Nat, i < k →
      is_valid_coordinate (sr + dr + (i : Int) * dr)
        (sc + dc + (i : Int) * dc) = true ∧
      bget b (sr + dr + (i : Int) * dr) (sc + dc + (i : Int) * dc) = Sq.empty)
    (hval : is_valid_coordinate (sr + dr + (k : Int) * dr)
      (sc + dc + (k : Int) * dc) = true) :
    (bget b (sr + dr + (k : Int) * dr) (sc + dc + (k : Int) * dc) ≠ Sq.empty ∧
        sqColor (bget b (sr + dr + (k : Int) * dr)
          (sc + dc + (k : Int) * dc)) ≠ some t →
      slide b t (sr, sc) (dr, dc) =
        (List.range (k + 1)).map
          (fun i : Nat =>
            ((sr, sc), (sr + dr + (i : Int) * dr, sc + dc + (i : Int) * dc)))) ∧
    (sqColor (bget b (sr + dr + (k : Int) * dr)
        (sc + dc + (k : Int) * dc)) = some t →
      slide b t (sr, sc) (dr, dc) =
        (List.range k).map
          (fun i : Nat =>
            ((sr, sc), (sr + dr + (i : Int) * dr, sc + dc + (i : Int) * dc)))) := by
  exact slideAux_ray b t (sr, sc) dr dc k 10 (sr + dr) (sc + dc) hk hmid hval

/-- A board with a single black pawn at (4,4): the white diagonal ray from
(2,2) passes the empty (3,3) and captures at (4,4). -/
def rayBoard : Board :=
  [[.empty, .empty, .empty, .empty, .empty],
   [.empty, .empty, .empty, .empty, .empty],
   [.empty, .empty, .empty, .empty, .empty],
   [.empty, .empty, .empty, .empty, .empty],
   [.empty, .empty, .empty, .empty, bp]]

/-- Witness for C5: the concrete ray includes the capture square (4,4) and
nothing beyond it. -/
theorem sliding_ray_capture_and_block_witness :
    slide rayBoard .white ((2 : Int), (2 : Int)) ((1 : Int), (1 : Int)) =
      (List.range 2).map
        (fun i : Nat => (((2 : Int), (2 : Int)),
          ((2 : Int) + 1 + (i : Int) * 1, (2 : Int) + 1 + (i : Int) * 1))) :=
  (sliding_ray_capture_and_block rayBoard .white 2 2 1 1 1 (by decide)
      (by decide) (by decide)).1 (by decide)

/-! ### C10: move generation does not change the game state -/

lemma foldl_append_thread {α β γ : Type} (g : γ → β → List α) (l : List β) :
    ∀ (ml : List α) (st : γ),
      l.foldl (fun acc x => (acc.1 ++ g acc.2 x, acc.2)) (ml, st) =
        (ml ++ l.flatMap (g st), st) := by
  induction l with
  | nil =>
    intro ml st
    simp
  | cons x xs ih =>
    intro ml st
    simp only [List.foldl_cons]
    rw [ih (ml ++ g st x) st]
    simp [List.flatMap_cons, List.append_assoc]

/-- `valid_moves` with the game state threaded through every loop
iteration exactly as the Python interpreter does: each iteration reads the
board and turn from the current state and passes the state on (the source
performs no assignment to `game_state` anywhere in `valid_moves`). -/
def valid_moves_st (s : GameState) : List Move × GameState :=
  s.board.enum.foldl
    (fun acc rp =>
      rp.2.enum.foldl
        (fun acc2 cp =>
          (acc2.1 ++ pieceMoves acc2.2 (rp.1 : Int) (cp.1 : Int) cp.2, acc2.2))
        acc)
    ([], s)

/-- `is_valid_move` with the state threaded through its `valid_moves`
call. -/
def is_valid_move_st (s : GameState) (m : Move) : Bool × GameState :=
  (decide (m ∈ (valid_moves_st s).1), (valid_moves_st s).2)

lemma valid_moves_st_eq (s : GameState) :
    valid_moves_st s = (valid_moves s, s) := by
  unfold valid_moves_st
  have hstep : (fun (acc : List Move × GameState) (rp : Nat × List Sq) =>
      rp.2.enum.foldl
        (fun acc2 cp =>
          (acc2.1 ++ pieceMoves acc2.2 (rp.1 : Int) (cp.1 : Int) cp.2, acc2.2))
        acc) =
      (fun acc rp =>
        (acc.1 ++ rp.2.enum.flatMap
          (fun cp => pieceMoves acc.2 (rp.1 : Int) (cp.1 : Int) cp.2), acc.2)) := by
    funext acc rp
    have h := foldl_append_thread
      (fun st cp => pieceMoves st (rp.1 : Int) (cp.1 : Int) cp.2)
      rp.2.enum acc.1 acc.2
    simpa using h
  rw [hstep,
    foldl_append_thread
      (fun st rp => rp.2.enum.flatMap
        (fun cp => pieceMoves st (rp.1 : Int) (cp.1 : Int) cp.2))
      s.board.enum [] s]
  simp [valid_moves]

/-- C10: move generation is pure.  Running `valid_moves` (and hence
`is_valid_move`) with the state explicitly threaded through every loop
iteration returns the state with `board`, `turn`, `turn_number`,
`turns_without_capture`, `turn_no_capture` and `game_over_reason` exactly
as they were, and computes the same move list / membership test as the
plain functions. -/
theorem valid_moves_pure (s : GameState) (m : Move) :
    (valid_moves_st s).2.board = s.board ∧
    (valid_moves_st s).2.turn = s.turn ∧
    (valid_moves_st s).2.turn_number = s.turn_number ∧
    (valid_moves_st s).2.turns_without_capture = s.turns_without_capture ∧
    (valid_moves_st s).2.turn_no_capture = s.turn_no_capture ∧
    (valid_moves_st s).2.game_over_reason = s.game_over_reason ∧
    (valid_moves_st s).1 = valid_moves s ∧
    (is_valid_move_st s m).2 = s ∧
    (is_valid_move_st s m).1 = is_valid_move s m := by
  have h := valid_moves_st_eq s
  rw [is_valid_move_st, is_valid_move, h]
  simp

/-! ### C7: every board access in move generation is bounds-checked -/

/-- A well-formed 5×5 board. -/
def WFBoard (b : Board) : Prop :=
  b.length = 5 ∧ ∀ row ∈ b, row.length = 5

instance : DecidablePred WFBoard := fun b => by
  unfold WFBoard
  infer_instance

/-- Checked board read: fails (returns `none`) whenever the row or column
index is outside the canonical range `[0, length)` — in particular for
every negative index.  This is the observation point for claim C7: an
unguarded access in the generator would surface as a `none`. -/
def bgetChk (b : Board) (r c : Int) : Option Sq :=
  if 0 ≤ r ∧ r < (b.length : Int) then
    let row := b.getD r.toNat []
    if 0 ≤ c ∧ c < (row.length : Int) then some (row.getD c.toNat Sq.empty)
    else none
  else none

lemma bgetChk_eq {b : Board} (h : WFBoard b) {r c : Int}
    (hv : is_valid_coordinate r c = true) :
    bgetChk b r c = some (bget b r c) := by
  have hv' := of_decide_eq_true hv
  obtain ⟨h1, h2, h3, h4⟩ := hv'
  have hr : 0 ≤ r ∧ r < (b.length : Int) := by
    constructor
    · omega
    · rw [h.1]; omega
  have hrowlen : (b.getD r.toNat []).length = 5 := by
    apply h.2
    have : r.toNat < b.length := by omega
    rw [List.getD_eq_getElem?_getD, List.getElem?_eq_getElem this]
    exact List.getElem_mem this
  have hc : 0 ≤ c ∧ c < ((b.getD r.toNat []).length : Int) := by
    constructor
    · omega
    · rw [hrowlen]; omega
  rw [bgetChk, if_pos hr, if_pos hc, bget, if_pos ⟨by omega, by omega⟩]

/-- Sequential effectful map over `Option` (the first failure
propagates), mirroring a Python loop whose body may raise. -/
def optMap {α β : Type} (f : α → Option β) : List α → Option (List β)
  | [] => some []
  | a :: l => do
    let b ← f a
    let bs ← optMap f l
    pure (b :: bs)

lemma optMap_eq_map {α β : Type} (f : α → Option β) (g : α → β) (l : List α)
    (h : ∀ a ∈ l, f a = some (g a)) : optMap f l = some (l.map g) := by
  induction l with
  | nil => rfl
  | cons a l ih =>
    rw [optMap, h a (by simp), ih (fun x hx => h x (by simp [hx]))]
    rfl

lemma filter_map_eq_flatten {α β : Type} (p : α → Bool) (f : α → β)
    (l : List α) :
    (l.filter p).map f =
      (l.map (fun a => if p a then [f a] else [])).flatten := by
  induction l with
  | nil => rfl
  | cons a l ih =>
    by_cases hp : p a <;> simp [hp, ih]

/-- `pawnMoves` with every board access routed through `bgetChk`,
preserving the source's short-circuit order: the validity check always
runs before the indexing. -/
def pawnMovesChk (s : GameState) (ri ci : Int) : Option (List Move) := do
  let er := if s.turn = .white then ri - 1 else ri + 1
  let fwd ←
    (if is_valid_coordinate er ci then
      (bgetChk s.board er ci).map (fun sq =>
        if sq = Sq.empty then [((ri, ci), (er, ci))] else [])
    else some [])
  let diags ← optMap (fun cd =>
      let dc := ci + cd
      if is_valid_coordinate er dc then
        (bgetChk s.board er dc).map (fun sq =>
          if sq ≠ Sq.empty ∧ sqColor sq ≠ some s.turn then
            [((ri, ci), (er, dc))]
          else [])
      else some []) ([-1, 1] : List Int)
  pure (fwd ++ diags.flatten)

/-- `stepMoves` (knight/king) with checked accesses. -/
def stepMovesChk (s : GameState) (dirs : List (Int × Int)) (ri ci : Int) :
    Option (List Move) :=
  (optMap (fun d =>
    if is_valid_coordinate (ri + d.1) (ci + d.2) then
      (bgetChk s.board (ri + d.1) (ci + d.2)).map (fun sq =>
        if sqColor sq ≠ some s.turn then
          [((ri, ci), (ri + d.1, ci + d.2))]
        else [])
    else some []) dirs).map List.flatten

/-- The sliding loop with checked accesses. -/
def slideAuxChk (b : Board) (t : Color) (start : Int × Int) (dr dc : Int) :
    Nat → Int → Int → Option (List Move)
  | 0, _, _ => some []
  | fuel + 1, er, ec =>
    if is_valid_coordinate er ec then do
      let sq ← bgetChk b er ec
      if sqColor sq ≠ some t then do
        let rest ←
          (if sq ≠ Sq.empty then some []
           else slideAuxChk b t start dr dc fuel (er + dr) (ec + dc))
        pure ((start, (er, ec)) :: rest)
      else pure []
    else pure []

def slideChk (b : Board) (t : Color) (start : Int × Int) (d : Int × Int) :
    Option (List Move) :=
  slideAuxChk b t start d.1 d.2 10 (start.1 + d.1) (start.2 + d.2)

/-- `pieceMoves` with checked accesses. -/
def pieceMovesChk (s : GameState) (ri ci : Int) (p : Sq) : Option (List Move) :=
  match p with
  | Sq.empty => some []
  | Sq.piece c k =>
    if c = s.turn then
      match k with
      | .pawn => pawnMovesChk s ri ci
      | .knight => stepMovesChk s knightDirs ri ci
      | .bishop =>
        (optMap (slideChk s.board s.turn (ri, ci)) diagDirs).map List.flatten
      | .queen =>
        (optMap (slideChk s.board s.turn (ri, ci)) eightDirs).map List.flatten
      | .king => stepMovesChk s eightDirs ri ci
    else some []

/-- `valid_moves` with checked accesses. -/
def valid_movesChk (s : GameState) : Option (List Move) :=
  (optMap (fun rp =>
    (optMap (fun cp => pieceMovesChk s (rp.1 : Int) (cp.1 : Int) cp.2)
        rp.2.enum).map List.flatten)
    s.board.enum).map List.flatten

lemma pawnMovesChk_eq (s : GameState) (h : WFBoard s.board) (ri ci : Int) :
    pawnMovesChk s ri ci = some (pawnMoves s ri ci) := by
  simp only [pawnMovesChk, pawnMoves]
  generalize (if s.turn = Color.white then ri - 1 else ri + 1) = er
  have hfwd : (if is_valid_coordinate er ci then
      (bgetChk s.board er ci).map (fun sq =>
        if sq = Sq.empty then [((ri, ci), (er, ci))] else [])
    else some []) =
      some (if is_valid_coordinate er ci ∧ bget s.board er ci = Sq.empty then
        [((ri, ci), (er, ci))] else []) := by
    by_cases hv : is_valid_coordinate er ci = true
    · rw [if_pos hv, bgetChk_eq h hv]
      by_cases he : bget s.board er ci = Sq.empty <;> simp [hv, he]
    · simp [hv]
  have hdia : optMap (fun cd =>
      let dc := ci + cd
      if is_valid_coordinate er dc then
        (bgetChk s.board er dc).map (fun sq =>
          if sq ≠ Sq.empty ∧ sqColor sq ≠ some s.turn then
            [((ri, ci), (er, dc))]
          else [])
      else some []) ([-1, 1] : List Int) =
      some (([-1, 1] : List Int).map (fun cd =>
        if is_valid_coordinate er (ci + cd) ∧
            bget s.board er (ci + cd) ≠ Sq.empty ∧
            sqColor (bget s.board er (ci + cd)) ≠ some s.turn then
          [((ri, ci), (er, ci + cd))]
        else [])) := by
    apply optMap_eq_map
    intro cd hcd
    by_cases hv : is_valid_coordinate er (ci + cd) = true
    · simp only [hv, if_true, bgetChk_eq h hv, Option.map_some', true_and]
    · simp [hv]
  rw [hfwd, hdia]
  simp [List.flatMap_def]

lemma stepMovesChk_eq (s : GameState) (h : WFBoard s.board)
    (dirs : List (Int × Int)) (ri ci : Int) :
    stepMovesChk s dirs ri ci = some (stepMoves s dirs ri ci) := by
  unfold stepMovesChk stepMoves
  rw [optMap_eq_map _
    (fun d =>
      if is_valid_coordinate (ri + d.1) (ci + d.2) ∧
          sqColor (bget s.board (ri + d.1) (ci + d.2)) ≠ some s.turn then
        [((ri, ci), (ri + d.1, ci + d.2))]
      else []) dirs]
  · rw [Option.map_some']
    congr 1
    rw [filter_map_eq_flatten]
    congr 1
    apply List.map_congr_left
    intro d hd
    by_cases hv : is_valid_coordinate (ri + d.1) (ci + d.2) = true
    · by_cases hc : sqColor (bget s.board (ri + d.1) (ci + d.2)) ≠ some s.turn
      · simp [hv, hc]
      · simp [hv, hc]
    · simp [hv]
  · intro d hd
    by_cases hv : is_valid_coordinate (ri + d.1) (ci + d.2) = true
    · simp only [hv, if_true, bgetChk_eq h hv, Option.map_some']
      by_cases hc : sqColor (bget s.board (ri + d.1) (ci + d.2)) ≠ some s.turn
      · simp [hv, hc]
      · simp [hv, hc]
    · simp [hv]

lemma slideAuxChk_eq (b : Board) (t : Color) (start : Int × Int)
    (dr dc : Int) (h : WFBoard b) :
    ∀ (fuel : Nat) (er ec : Int),
      slideAuxChk b t start dr dc fuel er ec =
        some (slideAux b t start dr dc fuel er ec) := by
  intro fuel
  induction fuel with
  | zero => intro er ec; rfl
  | succ f ih =>
    intro er ec
    by_cases hv : is_valid_coordinate er ec = true
    · rw [slideAuxChk, if_pos hv, slideAux, bgetChk_eq h hv]
      simp only [Option.bind_eq_bind, Option.some_bind]
      by_cases hc : sqColor (bget b er ec) ≠ some t
      · by_cases he : bget b er ec ≠ Sq.empty
        · simp [hv, hc, he, Option.bind_eq_bind, Option.pure_def]
        · simp [hv, hc, he, ih (er + dr) (ec + dc), Option.bind_eq_bind,
            Option.pure_def]
      · simp [hv, hc, Option.bind_eq_bind, Option.pure_def]
    · have hng : ¬ (is_valid_coordinate er ec = true ∧
          sqColor (bget b er ec) ≠ some t) := fun hcon => hv hcon.1
      rw [slideAuxChk, if_neg hv, slideAux, if_neg hng]
      rfl

lemma slideChk_eq (b : Board) (t : Color) (start : Int × Int)
    (d : Int × Int) (h : WFBoard b) :
    slideChk b t start d = some (slide b t start d) :=
  slideAuxChk_eq b t start d.1 d.2 h 10 (start.1 + d.1) (start.2 + d.2)

lemma pieceMovesChk_eq (s : GameState) (h : WFBoard s.board)
    (ri ci : Int) (p : Sq) :
    pieceMovesChk s ri ci p = some (pieceMoves s ri ci p) := by
  cases p with
  | empty => rfl
  | piece c k =>
    by_cases hc : c = s.turn
    · cases k <;>
        simp only [pieceMovesChk, pieceMoves, if_pos hc]
      · exact pawnMovesChk_eq s h ri ci
      · exact stepMovesChk_eq s h knightDirs ri ci
      · rw [optMap_eq_map _ (slide s.board s.turn (ri, ci)) diagDirs
          (fun d _ => slideChk_eq s.board s.turn (ri, ci) d h)]
        simp [List.flatMap_def]
      · rw [optMap_eq_map _ (slide s.board s.turn (ri, ci)) eightDirs
          (fun d _ => slideChk_eq s.board s.turn (ri, ci) d h)]
        simp [List.flatMap_def]
      · exact stepMovesChk_eq s h eightDirs ri ci
    · simp [pieceMovesChk, pieceMoves, hc]

/-- C7: every board access performed by the move generator sits behind an
`is_valid_coordinate` guard, so running `valid_moves` with bounds-checked
indexing (which fails on any row or column outside `[0,4]`, negative ones
included) never fails on a well-formed 5×5 board, and produces exactly the
moves of the unchecked generator. -/
theorem valid_moves_never_indexes_out_of_bounds (s : GameState)
    (h : WFBoard s.board) :
    valid_movesChk s = some (valid_moves s) := by
  unfold valid_movesChk valid_moves
  rw [optMap_eq_map _
    (fun rp => rp.2.enum.flatMap
      (fun cp => pieceMoves s (rp.1 : Int) (cp.1 : Int) cp.2))
    s.board.enum]
  · simp [List.flatMap_def]
  · intro rp hrp
    rw [optMap_eq_map _
      (fun cp => pieceMoves s (rp.1 : Int) (cp.1 : Int) cp.2) rp.2.enum
      (fun cp _ => pieceMovesChk_eq s h (rp.1 : Int) (cp.1 : Int) cp.2)]
    simp [List.flatMap_def]

/-- Witness for C7 at the initial position. -/
theorem valid_moves_never_indexes_out_of_bounds_witness :
    valid_movesChk init_board = some (valid_moves init_board) :=
  valid_moves_never_indexes_out_of_bounds init_board (by decide)

/-! ### The search engine: minimax with optional alpha-beta pruning

`minimax(state, depth, turn, start_time, is_max, alpha, beta)` returns a
`(score, move)` pair and increments the node counters on entry.  The
claims about the search are stated for runs with no timeout cutoff
(`timeout = ∞`), so the wall-clock test `time.time() - start_time >=
self.timeout - 0.01` is modelled as never firing; everything else follows
the source.  Scores live in the integers extended with `-math.inf` (`⊥`,
the initial maximum) and `math.inf` (`⊤`, the initial minimum); the third
component of the result is the number of `minimax` calls performed, i.e.
the amount by which `self.total_nodes` grows. -/

/-- The score domain: `ℤ` with `-∞` and `+∞` adjoined. -/
abbrev Score := WithBot (WithTop ℤ)

/-- A finite heuristic value as a score. -/
def sval (n : Int) : Score := ((n : WithTop ℤ) : Score)

/-- The maximizing loop of `minimax`: strict improvement updates the best
pair (ties keep the earlier move); with alpha-beta enabled, `alpha` is
raised to `max alpha value` after each child and the loop breaks when
`beta ≤ alpha`. -/
def maxLoop (ab : Bool) (child : Move → Score → Score → Score × Nat) :
    List Move → Score × Option Move → Score → Score → Nat →
      Score × Option Move × Nat
  | [], acc, _, _, n => (acc.1, acc.2, n)
  | mv :: rest, acc, alpha, beta, n =>
    let r := child mv alpha beta
    let acc2 := if acc.1 < r.1 then (r.1, some mv) else acc
    if ab then
      let alpha2 := max alpha r.1
      if beta ≤ alpha2 then (acc2.1, acc2.2, n + r.2)
      else maxLoop ab child rest acc2 alpha2 beta (n + r.2)
    else maxLoop ab child rest acc2 alpha beta (n + r.2)

/-- The minimizing loop of `minimax`, symmetric to `maxLoop`. -/
def minLoop (ab : Bool) (child : Move → Score → Score → Score × Nat) :
    List Move → Score × Option Move → Score → Score → Nat →
      Score × Option Move × Nat
  | [], acc, _, _, n => (acc.1, acc.2, n)
  | mv :: rest, acc, alpha, beta, n =>
    let r := child mv alpha beta
    let acc2 := if r.1 < acc.1 then (r.1, some mv) else acc
    if ab then
      let beta2 := min beta r.1
      if beta2 ≤ alpha then (acc2.1, acc2.2, n + r.2)
      else minLoop ab child rest acc2 alpha beta2 (n + r.2)
    else minLoop ab child rest acc2 alpha beta (n + r.2)

/-- `minimax`.  `ab` is `self.alphabeta`, `h` the configured heuristic,
`mt` is `self.max_turns` (used by `make_move`), `t` the perspective that
initiated the search (passed down unchanged).  Each call counts itself as
one node; a leaf (depth 0 or game over) returns the static evaluation and
no move; otherwise each generated move is applied to a copy of the state
and searched at depth − 1 with the opposite maximizing flag. -/
def minimax (ab : Bool) (h : GameState → Color → Int) (mt : Int) (t : Color) :
    Nat → GameState → Bool → Score → Score → Score × Option Move × Nat
  | 0, s, _, _, _ => (sval (h s t), none, 1)
  | d + 1, s, isMax, alpha, beta =>
    if s.game_over_reason ≠ "" then (sval (h s t), none, 1)
    else if isMax then
      maxLoop ab (fun mv a b =>
          let r := minimax ab h mt t d (make_move mt s mv) false a b
          (r.1, r.2.2))
        (valid_moves s) (⊥, none) alpha beta 1
    else
      minLoop ab (fun mv a b =>
          let r := minimax ab h mt t d (make_move mt s mv) true a b
          (r.1, r.2.2))
        (valid_moves s) (⊤, none) alpha beta 1

/-! ### C2: a non-leaf call on a state with no legal moves (corrected) -/

/-- A live state in which the side to move (white) has no legal moves:
its only piece is a pawn blocked straight ahead with nothing to capture. -/
def noMovesState : GameState :=
  { board :=
      [[.empty, .empty, .empty, .empty, .empty],
       [.empty, .empty, bN, .empty, .empty],
       [.empty, .empty, wp, .empty, .empty],
       [.empty, .empty, .empty, .empty, .empty],
       [.empty, .empty, .empty, .empty, .empty]],
    turn := .white,
    game_over_reason := "",
    turn_number := 1,
    turns_without_capture := 0,
    turn_no_capture := false }

/-- Counterexample to C2 as stated: a non-leaf maximizing call (depth 1,
game not over) on a state with no legal moves returns score `-∞`, not the
static evaluation of the state (which is the finite value `e0 = -2`). -/
theorem minimax_no_moves_score_not_heuristic :
    0 < 1 ∧ noMovesState.game_over_reason = "" ∧
      valid_moves noMovesState = [] ∧
      (minimax false e0 100 .white 1 noMovesState true ⊥ ⊤).1 ≠
        sval (e0 noMovesState .white) := by
  decide

/-- C2 (amended): a non-leaf `minimax` call (depth > 0, game not over, no
timeout) on a state with no legal moves returns no move, counts one node,
and returns the initial fold value — `-∞` when maximizing, `+∞` when
minimizing — rather than the static evaluation of the state. -/
theorem minimax_no_moves (ab : Bool) (h : GameState → Color → Int)
    (mt : Int) (t : Color) (s : GameState) (d : Nat) (isMax : Bool)
    (alpha beta : Score) (hd : 0 < d) (hreason : s.game_over_reason = "")
    (hmoves : valid_moves s = []) :
    minimax ab h mt t d s isMax alpha beta =
      ((if isMax then (⊥ : Score) else (⊤ : Score)), none, 1) := by
  obtain ⟨e, rfl⟩ : ∃ e, d = e + 1 := ⟨d - 1, by omega⟩
  cases isMax <;> simp [minimax, hreason, hmoves, maxLoop, minLoop]

/-- Witness for C2 (amended) at the blocked-pawn state. -/
theorem minimax_no_moves_witness :
    minimax false e0 100 .white 1 noMovesState true ⊥ ⊤ =
      ((⊥ : Score), none, 1) := by
  rw [minimax_no_moves false e0 100 .white noMovesState 1 true ⊥ ⊤
    (by decide) (by decide) (by decide)]
  rfl

/-! ### C1: alpha-beta pruning preserves the minimax value

The development follows the classical fail-soft argument: a pruned call
with window `alpha < beta` returns a value `v` with `v ≤ alpha → M ≤ v`,
`beta ≤ v → v ≤ M`, and `alpha < v < beta → v = M`, where `M` is the plain
minimax value; at the root window `(-∞, +∞)` the three cases collapse to
`v = M`.  Node counts are compared through the observation that the pruned
loop visits a prefix of the children, each with no more nodes than its
unpruned run. -/

section OrderHelpers

variable {γ : Type} [LinearOrder γ]

lemma strict_update_max (a v : γ) : (if a < v then v else a) = max a v := by
  rcases le_or_lt v a with hle | hlt
  · rw [if_neg (not_lt.mpr hle), max_eq_left hle]
  · rw [if_pos hlt, max_eq_right hlt.le]

lemma strict_update_min (a v : γ) : (if v < a then v else a) = min a v := by
  rcases le_or_lt a v with hle | hlt
  · rw [if_neg (not_lt.mpr hle), min_eq_left hle]
  · rw [if_pos hlt, min_eq_right hlt.le]

lemma le_of_le_max_of_lt {x S v : γ} (h : v ≤ max x S) (hx : x < v) : v ≤ S := by
  rcases le_total x S with hxs | hxs
  · rwa [max_eq_right hxs] at h
  · rw [max_eq_left hxs] at h
    exact absurd (lt_of_lt_of_le hx h) (lt_irrefl x)

lemma ge_of_min_le_of_lt {x S v : γ} (h : min x S ≤ v) (hx : v < x) : S ≤ v := by
  rcases le_total S x with hxs | hxs
  · rwa [min_eq_right hxs] at h
  · rw [min_eq_left hxs] at h
    exact absurd (lt_of_le_of_lt h hx) (lt_irrefl x)

variable {β' : Type}

lemma foldl_max_init_le (cv : β' → γ) (l : List β') (a : γ) :
    a ≤ l.foldl (fun x y => max x (cv y)) a := by
  induction l generalizing a with
  | nil => exact le_rfl
  | cons y l ih => exact le_trans (le_max_left a (cv y)) (ih (max a (cv y)))

lemma foldl_max_mono (cv : β' → γ) (l : List β') {a b : γ} (h : a ≤ b) :
    l.foldl (fun x y => max x (cv y)) a ≤ l.foldl (fun x y => max x (cv y)) b := by
  induction l generalizing a b with
  | nil => exact h
  | cons y l ih => exact ih (max_le_max h le_rfl)

lemma foldl_max_pull (cv : β' → γ) (l : List β') (a b : γ) :
    l.foldl (fun x y => max x (cv y)) (max a b) =
      max a (l.foldl (fun x y => max x (cv y)) b) := by
  induction l generalizing b with
  | nil => rfl
  | cons y l ih =>
    simp only [List.foldl_cons]
    rw [max_assoc, ih (max b (cv y))]

lemma foldl_min_init_ge (cv : β' → γ) (l : List β') (a : γ) :
    l.foldl (fun x y => min x (cv y)) a ≤ a := by
  induction l generalizing a with
  | nil => exact le_rfl
  | cons y l ih => exact le_trans (ih (min a (cv y))) (min_le_left a (cv y))

lemma foldl_min_mono (cv : β' → γ) (l : List β') {a b : γ} (h : a ≤ b) :
    l.foldl (fun x y => min x (cv y)) a ≤ l.foldl (fun x y => min x (cv y)) b := by
  induction l generalizing a b with
  | nil => exact h
  | cons y l ih => exact ih (min_le_min h le_rfl)

lemma foldl_min_pull (cv : β' → γ) (l : List β') (a b : γ) :
    l.foldl (fun x y => min x (cv y)) (min a b) =
      min a (l.foldl (fun x y => min x (cv y)) b) := by
  induction l generalizing b with
  | nil => rfl
  | cons y l ih =>
    simp only [List.foldl_cons]
    rw [min_assoc, ih (min b (cv y))]

end OrderHelpers

section MaxLoopLemmas

variable (cT : Move → Score → Score → Score × Nat)

lemma maxLoop_cons (mv : Move) (rest : List Move) (acc : Score × Option Move)
    (alpha beta : Score) (n : Nat) :
    maxLoop true cT (mv :: rest) acc alpha beta n =
      (if beta ≤ max alpha (cT mv alpha beta).1 then
        ((if acc.1 < (cT mv alpha beta).1 then ((cT mv alpha beta).1, some mv)
          else acc).1,
         (if acc.1 < (cT mv alpha beta).1 then ((cT mv alpha beta).1, some mv)
          else acc).2,
         n + (cT mv alpha beta).2)
      else maxLoop true cT rest
        (if acc.1 < (cT mv alpha beta).1 then ((cT mv alpha beta).1, some mv)
         else acc)
        (max alpha (cT mv alpha beta).1) beta (n + (cT mv alpha beta).2)) := by
  rfl

lemma maxLoop_val (l : List Move) :
    ∀ (acc : Score × Option Move) (alpha beta : Score) (n n2 : Nat)
      (bm2 : Option Move),
      (maxLoop true cT l acc alpha beta n).1 =
        (maxLoop true cT l (acc.1, bm2) alpha beta n2).1 := by
  induction l with
  | nil => intro acc alpha beta n n2 bm2; rfl
  | cons mv rest ih =>
    intro acc alpha beta n n2 bm2
    rw [maxLoop_cons, maxLoop_cons]
    by_cases hbr : beta ≤ max alpha (cT mv alpha beta).1
    · rw [if_pos hbr, if_pos hbr]
      by_cases hup : acc.1 < (cT mv alpha beta).1 <;> simp [hup]
    · rw [if_neg hbr, if_neg hbr]
      by_cases hup : acc.1 < (cT mv alpha beta).1
      · simp only [hup, if_true]
        exact ih ((cT mv alpha beta).1, some mv)
          (max alpha (cT mv alpha beta).1) beta (n + (cT mv alpha beta).2)
          (n2 + (cT mv alpha beta).2) (some mv)
      · simp only [hup, if_false]
        exact ih acc (max alpha (cT mv alpha beta).1) beta
          (n + (cT mv alpha beta).2) (n2 + (cT mv alpha beta).2) bm2

lemma maxLoop_val_ge (l : List Move) :
    ∀ (m0 : Score) (bm : Option Move) (alpha beta : Score) (n : Nat),
      m0 ≤ (maxLoop true cT l (m0, bm) alpha beta n).1 := by
  induction l with
  | nil => intro m0 bm alpha beta n; exact le_rfl
  | cons mv rest ih =>
    intro m0 bm alpha beta n
    rw [maxLoop_cons]
    by_cases hbr : beta ≤ max alpha (cT mv alpha beta).1
    · rw [if_pos hbr]
      by_cases hup : m0 < (cT mv alpha beta).1
      · simp only [if_pos hup]
        exact hup.le
      · simp only [if_neg hup]
        exact le_rfl
    · rw [if_neg hbr]
      by_cases hup : m0 < (cT mv alpha beta).1
      · simp only [if_pos hup]
        exact le_trans hup.le (ih _ _ _ _ _)
      · simp only [if_neg hup]
        exact ih _ _ _ _ _

end MaxLoopLemmas

section MaxLoopFailSoft

variable (cT : Move → Score → Score → Score × Nat)

lemma maxLoop_val2 (l : List Move) (a : Score) (bm bm2 : Option Move)
    (alpha beta : Score) (n n2 : Nat) :
    (maxLoop true cT l (a, bm) alpha beta n).1 =
      (maxLoop true cT l (a, bm2) alpha beta n2).1 :=
  maxLoop_val cT l (a, bm) alpha beta n n2 bm2

lemma maxLoop_val_break (mv : Move) (rest : List Move) (m0 : Score)
    (bm : Option Move) (alpha beta : Score) (n : Nat)
    (hbr : beta ≤ max alpha (cT mv alpha beta).1) :
    (maxLoop true cT (mv :: rest) (m0, bm) alpha beta n).1 =
      max m0 (cT mv alpha beta).1 := by
  by_cases hup : m0 < (cT mv alpha beta).1
  · simp [maxLoop, hbr, hup, max_eq_right hup.le]
  · simp [maxLoop, hbr, hup, max_eq_left (not_lt.mp hup)]

lemma maxLoop_val_cont (mv : Move) (rest : List Move) (m0 : Score)
    (bm : Option Move) (alpha beta : Score) (n : Nat)
    (hbr : ¬ beta ≤ max alpha (cT mv alpha beta).1) :
    (maxLoop true cT (mv :: rest) (m0, bm) alpha beta n).1 =
      (maxLoop true cT rest (max m0 (cT mv alpha beta).1, none)
        (max alpha (cT mv alpha beta).1) beta 0).1 := by
  by_cases hup : m0 < (cT mv alpha beta).1
  · rw [max_eq_right hup.le]
    have hstep : maxLoop true cT (mv :: rest) (m0, bm) alpha beta n =
        maxLoop true cT rest ((cT mv alpha beta).1, some mv)
          (max alpha (cT mv alpha beta).1) beta (n + (cT mv alpha beta).2) := by
      simp [maxLoop, hbr, hup]
    rw [hstep]
    exact maxLoop_val2 cT rest ((cT mv alpha beta).1) (some mv) none
      (max alpha (cT mv alpha beta).1) beta (n + (cT mv alpha beta).2) 0
  · rw [max_eq_left (not_lt.mp hup)]
    have hstep : maxLoop true cT (mv :: rest) (m0, bm) alpha beta n =
        maxLoop true cT rest (m0, bm)
          (max alpha (cT mv alpha beta).1) beta (n + (cT mv alpha beta).2) := by
      simp [maxLoop, hbr, hup]
    rw [hstep]
    exact maxLoop_val2 cT rest m0 bm none
      (max alpha (cT mv alpha beta).1) beta (n + (cT mv alpha beta).2) 0

/-- Fail-soft property of the pruned maximizing loop: with window
`alpha < beta` and running maximum `m0 ≤ alpha`, the returned value `v`
satisfies `v ≤ alpha → F ≤ v`, `beta ≤ v → v ≤ F` and
`alpha < v < beta → v = F`, where `F` is the unpruned fold of the true
child values. -/
lemma maxLoop_fail_soft (cP : Move → Score)
    (hch : ∀ mv alpha beta, alpha < beta →
      ((cT mv alpha beta).1 ≤ alpha → cP mv ≤ (cT mv alpha beta).1) ∧
      (beta ≤ (cT mv alpha beta).1 → (cT mv alpha beta).1 ≤ cP mv) ∧
      (alpha < (cT mv alpha beta).1 → (cT mv alpha beta).1 < beta →
        (cT mv alpha beta).1 = cP mv)) :
    ∀ (l : List Move) (m0 : Score) (bm : Option Move) (alpha beta : Score)
      (n : Nat), alpha < beta → m0 ≤ alpha →
      (((maxLoop true cT l (m0, bm) alpha beta n).1 ≤ alpha →
        List.foldl (fun x mv => max x (cP mv)) m0 l ≤
          (maxLoop true cT l (m0, bm) alpha beta n).1) ∧
      (beta ≤ (maxLoop true cT l (m0, bm) alpha beta n).1 →
        (maxLoop true cT l (m0, bm) alpha beta n).1 ≤
          List.foldl (fun x mv => max x (cP mv)) m0 l) ∧
      (alpha < (maxLoop true cT l (m0, bm) alpha beta n).1 →
        (maxLoop true cT l (m0, bm) alpha beta n).1 < beta →
        (maxLoop true cT l (m0, bm) alpha beta n).1 =
          List.foldl (fun x mv => max x (cP mv)) m0 l)) := by
  intro l
  induction l with
  | nil =>
    intro m0 bm alpha beta n hab hm0
    exact ⟨fun _ => le_rfl, fun _ => le_rfl, fun _ _ => rfl⟩
  | cons mv rest ih =>
    intro m0 bm alpha beta n hab hm0
    simp only [List.foldl_cons]
    have hpull : ∀ z : Score,
        List.foldl (fun x mv => max x (cP mv)) z rest =
          max z (List.foldl (fun x mv => max x (cP mv)) ⊥ rest) := by
      intro z
      have hp := foldl_max_pull cP rest z ⊥
      rwa [max_eq_left bot_le] at hp
    by_cases hbr : beta ≤ max alpha (cT mv alpha beta).1
    · rw [maxLoop_val_break cT mv rest m0 bm alpha beta n hbr]
      have hr1a : alpha < (cT mv alpha beta).1 := by
        rcases le_or_lt (cT mv alpha beta).1 alpha with hle | hlt
        · rw [max_eq_left hle] at hbr
          exact absurd hbr (not_le.mpr hab)
        · exact hlt
      have hrb : beta ≤ (cT mv alpha beta).1 := by
        rwa [max_eq_right hr1a.le] at hbr
      rw [max_eq_right (le_trans hm0 hr1a.le)]
      refine ⟨fun hle => absurd hle (not_le.mpr hr1a), fun _ => ?_,
        fun _ hlt => absurd hlt (not_lt.mpr hrb)⟩
      exact le_trans ((hch mv alpha beta hab).2.1 hrb)
        (le_trans (le_max_right m0 (cP mv))
          (foldl_max_init_le cP rest (max m0 (cP mv))))
    · rw [maxLoop_val_cont cT mv rest m0 bm alpha beta n hbr]
      have hab2 : max alpha (cT mv alpha beta).1 < beta := not_le.mp hbr
      rcases le_or_lt (cT mv alpha beta).1 alpha with hS1 | hgt
      · -- the child failed low: its value bounds its true value from above
        have ha2 : max alpha (cT mv alpha beta).1 = alpha := max_eq_left hS1
        have hcp : cP mv ≤ (cT mv alpha beta).1 := (hch mv alpha beta hab).1 hS1
        have ihh := ih (max m0 (cT mv alpha beta).1) none
          (max alpha (cT mv alpha beta).1) beta 0 hab2
          (max_le_max hm0 le_rfl)
        rw [ha2] at ihh ⊢
        have hmra : max m0 (cT mv alpha beta).1 ≤ alpha := max_le hm0 hS1
        have hFF : List.foldl (fun x mv => max x (cP mv)) (max m0 (cP mv)) rest ≤
            List.foldl (fun x mv => max x (cP mv))
              (max m0 (cT mv alpha beta).1) rest :=
          foldl_max_mono cP rest (max_le_max le_rfl hcp)
        refine ⟨fun hva => le_trans hFF (ihh.1 hva), fun hbv => ?_,
          fun hav hvb => ?_⟩
        · have hvF := ihh.2.1 hbv
          rw [hpull (max m0 (cT mv alpha beta).1)] at hvF
          have hmrv : max m0 (cT mv alpha beta).1 <
              (maxLoop true cT rest (max m0 (cT mv alpha beta).1, none)
                alpha beta 0).1 :=
            lt_of_le_of_lt hmra (lt_of_lt_of_le hab hbv)
          have hvS := le_of_le_max_of_lt hvF hmrv
          rw [hpull (max m0 (cP mv))]
          exact le_trans hvS (le_max_right _ _)
        · have hveq := ihh.2.2 hav hvb
          rw [hpull (max m0 (cT mv alpha beta).1)] at hveq
          have hmrv : max m0 (cT mv alpha beta).1 <
              (maxLoop true cT rest (max m0 (cT mv alpha beta).1, none)
                alpha beta 0).1 :=
            lt_of_le_of_lt hmra hav
          have hvS : (maxLoop true cT rest (max m0 (cT mv alpha beta).1, none)
              alpha beta 0).1 =
              List.foldl (fun x mv => max x (cP mv)) ⊥ rest :=
            le_antisymm (le_of_le_max_of_lt hveq.le hmrv)
              (hveq ▸ le_max_right _ _)
          have hxS : max m0 (cP mv) ≤
              List.foldl (fun x mv => max x (cP mv)) ⊥ rest := by
            rw [← hvS]
            exact le_of_lt (lt_of_le_of_lt
              (le_trans (max_le_max le_rfl hcp) hmra) hav)
          rw [hpull (max m0 (cP mv)), max_eq_right hxS]
          exact hvS
      · rcases lt_or_le (cT mv alpha beta).1 beta with hlt | hS3
        · -- the child value is exact
          have ha2 : max alpha (cT mv alpha beta).1 = (cT mv alpha beta).1 :=
            max_eq_right hgt.le
          have hcp : (cT mv alpha beta).1 = cP mv :=
            (hch mv alpha beta hab).2.2 hgt hlt
          have hinit : max m0 (cP mv) = max m0 (cT mv alpha beta).1 := by
            rw [← hcp]
          have ihh := ih (max m0 (cT mv alpha beta).1) none
            (max alpha (cT mv alpha beta).1) beta 0 hab2
            (max_le_max hm0 le_rfl)
          rw [ha2] at ihh ⊢
          rw [hinit]
          refine ⟨fun hva => ihh.1 (le_trans hva hgt.le), fun hbv => ihh.2.1 hbv,
            fun hav hvb => ?_⟩
          have hge := maxLoop_val_ge cT rest (max m0 (cT mv alpha beta).1) none
            (cT mv alpha beta).1 beta 0
          have hr1v : (cT mv alpha beta).1 ≤
              (maxLoop true cT rest (max m0 (cT mv alpha beta).1, none)
                (cT mv alpha beta).1 beta 0).1 :=
            le_trans (le_max_right m0 _) hge
          rcases lt_or_eq_of_le hr1v with hlt2 | heq
          · exact ihh.2.2 hlt2 hvb
          · have hvr : (maxLoop true cT rest
                (max m0 (cT mv alpha beta).1, none)
                (cT mv alpha beta).1 beta 0).1 ≤ (cT mv alpha beta).1 :=
              heq.symm.le
            refine le_antisymm ?_ (ihh.1 hvr)
            calc (maxLoop true cT rest (max m0 (cT mv alpha beta).1, none)
                  (cT mv alpha beta).1 beta 0).1
                ≤ (cT mv alpha beta).1 := hvr
              _ ≤ max m0 (cT mv alpha beta).1 := le_max_right _ _
              _ ≤ List.foldl (fun x mv => max x (cP mv))
                    (max m0 (cT mv alpha beta).1) rest :=
                  foldl_max_init_le cP rest _
        · exact absurd (le_trans hS3 (le_max_right alpha _)) hbr

end MaxLoopFailSoft

section MinLoopFailSoft

variable (cT : Move → Score → Score → Score × Nat)

lemma minLoop_cons (mv : Move) (rest : List Move) (acc : Score × Option Move)
    (alpha beta : Score) (n : Nat) :
    minLoop true cT (mv :: rest) acc alpha beta n =
      (if min beta (cT mv alpha beta).1 ≤ alpha then
        ((if (cT mv alpha beta).1 < acc.1 then ((cT mv alpha beta).1, some mv)
          else acc).1,
         (if (cT mv alpha beta).1 < acc.1 then ((cT mv alpha beta).1, some mv)
          else acc).2,
         n + (cT mv alpha beta).2)
      else minLoop true cT rest
        (if (cT mv alpha beta).1 < acc.1 then ((cT mv alpha beta).1, some mv)
         else acc)
        alpha (min beta (cT mv alpha beta).1) (n + (cT mv alpha beta).2)) := by
  rfl

lemma minLoop_val (l : List Move) :
    ∀ (acc : Score × Option Move) (alpha beta : Score) (n n2 : Nat)
      (bm2 : Option Move),
      (minLoop true cT l acc alpha beta n).1 =
        (minLoop true cT l (acc.1, bm2) alpha beta n2).1 := by
  induction l with
  | nil => intro acc alpha beta n n2 bm2; rfl
  | cons mv rest ih =>
    intro acc alpha beta n n2 bm2
    rw [minLoop_cons, minLoop_cons]
    by_cases hbr : min beta (cT mv alpha beta).1 ≤ alpha
    · rw [if_pos hbr, if_pos hbr]
      by_cases hup : (cT mv alpha beta).1 < acc.1 <;> simp [hup]
    · rw [if_neg hbr, if_neg hbr]
      by_cases hup : (cT mv alpha beta).1 < acc.1
      · simp only [hup, if_true]
        exact ih ((cT mv alpha beta).1, some mv) alpha
          (min beta (cT mv alpha beta).1) (n + (cT mv alpha beta).2)
          (n2 + (cT mv alpha beta).2) (some mv)
      · simp only [hup, if_false]
        exact ih acc alpha (min beta (cT mv alpha beta).1)
          (n + (cT mv alpha beta).2) (n2 + (cT mv alpha beta).2) bm2

lemma minLoop_val2 (l : List Move) (a : Score) (bm bm2 : Option Move)
    (alpha beta : Score) (n n2 : Nat) :
    (minLoop true cT l (a, bm) alpha beta n).1 =
      (minLoop true cT l (a, bm2) alpha beta n2).1 :=
  minLoop_val cT l (a, bm) alpha beta n n2 bm2

lemma minLoop_val_le (l : List Move) :
    ∀ (m0 : Score) (bm : Option Move) (alpha beta : Score) (n : Nat),
      (minLoop true cT l (m0, bm) alpha beta n).1 ≤ m0 := by
  induction l with
  | nil => intro m0 bm alpha beta n; exact le_rfl
  | cons mv rest ih =>
    intro m0 bm alpha beta n
    rw [minLoop_cons]
    by_cases hbr : min beta (cT mv alpha beta).1 ≤ alpha
    · rw [if_pos hbr]
      by_cases hup : (cT mv alpha beta).1 < m0
      · simp only [if_pos hup]
        exact hup.le
      · simp only [if_neg hup]
        exact le_rfl
    · rw [if_neg hbr]
      by_cases hup : (cT mv alpha beta).1 < m0
      · simp only [if_pos hup]
        exact le_trans (ih _ _ _ _ _) hup.le
      · simp only [if_neg hup]
        exact ih _ _ _ _ _

lemma minLoop_val_break (mv : Move) (rest : List Move) (m0 : Score)
    (bm : Option Move) (alpha beta : Score) (n : Nat)
    (hbr : min beta (cT mv alpha beta).1 ≤ alpha) :
    (minLoop true cT (mv :: rest) (m0, bm) alpha beta n).1 =
      min m0 (cT mv alpha beta).1 := by
  by_cases hup : (cT mv alpha beta).1 < m0
  · simp [minLoop, hbr, hup, min_eq_right hup.le]
  · simp [minLoop, hbr, hup, min_eq_left (not_lt.mp hup)]

lemma minLoop_val_cont (mv : Move) (rest : List Move) (m0 : Score)
    (bm : Option Move) (alpha beta : Score) (n : Nat)
    (hbr : ¬ min beta (cT mv alpha beta).1 ≤ alpha) :
    (minLoop true cT (mv :: rest) (m0, bm) alpha beta n).1 =
      (minLoop true cT rest (min m0 (cT mv alpha beta).1, none)
        alpha (min beta (cT mv alpha beta).1) 0).1 := by
  by_cases hup : (cT mv alpha beta).1 < m0
  · rw [min_eq_right hup.le]
    have hstep : minLoop true cT (mv :: rest) (m0, bm) alpha beta n =
        minLoop true cT rest ((cT mv alpha beta).1, some mv)
          alpha (min beta (cT mv alpha beta).1) (n + (cT mv alpha beta).2) := by
      simp [minLoop, hbr, hup]
    rw [hstep]
    exact minLoop_val2 cT rest ((cT mv alpha beta).1) (some mv) none
      alpha (min beta (cT mv alpha beta).1) (n + (cT mv alpha beta).2) 0
  · rw [min_eq_left (not_lt.mp hup)]
    have hstep : minLoop true cT (mv :: rest) (m0, bm) alpha beta n =
        minLoop true cT rest (m0, bm)
          alpha (min beta (cT mv alpha beta).1) (n + (cT mv alpha beta).2) := by
      simp [minLoop, hbr, hup]
    rw [hstep]
    exact minLoop_val2 cT rest m0 bm none
      alpha (min beta (cT mv alpha beta).1) (n + (cT mv alpha beta).2) 0

/-- Fail-soft property of the pruned minimizing loop, symmetric to
`maxLoop_fail_soft`: with window `alpha < beta` and running minimum
`beta ≤ m0`, the returned value is related to the unpruned fold of the
true child values by the same three implications. -/
lemma minLoop_fail_soft (cP : Move → Score)
    (hch : ∀ mv alpha beta, alpha < beta →
      ((cT mv alpha beta).1 ≤ alpha → cP mv ≤ (cT mv alpha beta).1) ∧
      (beta ≤ (cT mv alpha beta).1 → (cT mv alpha beta).1 ≤ cP mv) ∧
      (alpha < (cT mv alpha beta).1 → (cT mv alpha beta).1 < beta →
        (cT mv alpha beta).1 = cP mv)) :
    ∀ (l : List Move) (m0 : Score) (bm : Option Move) (alpha beta : Score)
      (n : Nat), alpha < beta → beta ≤ m0 →
      (((minLoop true cT l (m0, bm) alpha beta n).1 ≤ alpha →
        List.foldl (fun x mv => min x (cP mv)) m0 l ≤
          (minLoop true cT l (m0, bm) alpha beta n).1) ∧
      (beta ≤ (minLoop true cT l (m0, bm) alpha beta n).1 →
        (minLoop true cT l (m0, bm) alpha beta n).1 ≤
          List.foldl (fun x mv => min x (cP mv)) m0 l) ∧
      (alpha < (minLoop true cT l (m0, bm) alpha beta n).1 →
        (minLoop true cT l (m0, bm) alpha beta n).1 < beta →
        (minLoop true cT l (m0, bm) alpha beta n).1 =
          List.foldl (fun x mv => min x (cP mv)) m0 l)) := by
  intro l
  induction l with
  | nil =>
    intro m0 bm alpha beta n hab hm0
    exact ⟨fun _ => le_rfl, fun _ => le_rfl, fun _ _ => rfl⟩
  | cons mv rest ih =>
    intro m0 bm alpha beta n hab hm0
    simp only [List.foldl_cons]
    have hpull : ∀ z : Score,
        List.foldl (fun x mv => min x (cP mv)) z rest =
          min z (List.foldl (fun x mv => min x (cP mv)) ⊤ rest) := by
      intro z
      have hp := foldl_min_pull cP rest z ⊤
      rwa [min_eq_left le_top] at hp
    by_cases hbr : min beta (cT mv alpha beta).1 ≤ alpha
    · rw [minLoop_val_break cT mv rest m0 bm alpha beta n hbr]
      have hr1a : (cT mv alpha beta).1 ≤ alpha := by
        rcases le_or_lt (cT mv alpha beta).1 alpha with hle | hlt
        · exact hle
        · exact absurd hbr (not_le.mpr (lt_min hab hlt))
      have hv : min m0 (cT mv alpha beta).1 = (cT mv alpha beta).1 :=
        min_eq_right (le_trans hr1a (le_trans hab.le hm0))
      rw [hv]
      refine ⟨fun _ => ?_, fun hbv => absurd hbv
          (not_le.mpr (lt_of_le_of_lt hr1a hab)),
        fun hav _ => absurd hav (not_lt.mpr hr1a)⟩
      exact le_trans (foldl_min_init_ge cP rest (min m0 (cP mv)))
        (le_trans (min_le_right m0 (cP mv)) ((hch mv alpha beta hab).1 hr1a))
    · rw [minLoop_val_cont cT mv rest m0 bm alpha beta n hbr]
      have hab2 : alpha < min beta (cT mv alpha beta).1 := not_le.mp hbr
      rcases le_or_lt beta (cT mv alpha beta).1 with hS1 | hlt0
      · -- the child failed high: its value bounds its true value from below
        have hb2 : min beta (cT mv alpha beta).1 = beta := min_eq_left hS1
        have hcp : (cT mv alpha beta).1 ≤ cP mv := (hch mv alpha beta hab).2.1 hS1
        have ihh := ih (min m0 (cT mv alpha beta).1) none
          alpha (min beta (cT mv alpha beta).1) 0
          (by rw [hb2]; exact hab) (min_le_min hm0 le_rfl)
        rw [hb2] at ihh ⊢
        have hmrb : beta ≤ min m0 (cT mv alpha beta).1 := le_min hm0 hS1
        have hFF : List.foldl (fun x mv => min x (cP mv))
            (min m0 (cT mv alpha beta).1) rest ≤
            List.foldl (fun x mv => min x (cP mv)) (min m0 (cP mv)) rest :=
          foldl_min_mono cP rest (min_le_min le_rfl hcp)
        refine ⟨fun hva => ?_, fun hbv => le_trans (ihh.2.1 hbv) hFF,
          fun hav hvb => ?_⟩
        · have hvF := ihh.1 hva
          rw [hpull (min m0 (cT mv alpha beta).1)] at hvF
          have hmrv : (minLoop true cT rest
              (min m0 (cT mv alpha beta).1, none) alpha beta 0).1 <
              min m0 (cT mv alpha beta).1 :=
            lt_of_le_of_lt hva (lt_of_lt_of_le hab hmrb)
          have hvS := ge_of_min_le_of_lt hvF hmrv
          rw [hpull (min m0 (cP mv))]
          exact le_trans (min_le_right _ _) hvS
        · have hveq := ihh.2.2 hav hvb
          rw [hpull (min m0 (cT mv alpha beta).1)] at hveq
          have hmrv : (minLoop true cT rest
              (min m0 (cT mv alpha beta).1, none) alpha beta 0).1 <
              min m0 (cT mv alpha beta).1 :=
            lt_of_lt_of_le hvb hmrb
          have hvS : (minLoop true cT rest
              (min m0 (cT mv alpha beta).1, none) alpha beta 0).1 =
              List.foldl (fun x mv => min x (cP mv)) ⊤ rest :=
            le_antisymm (le_of_eq_of_le hveq (min_le_right _ _))
              (ge_of_min_le_of_lt hveq.ge hmrv)
          have hxS : List.foldl (fun x mv => min x (cP mv)) ⊤ rest ≤
              min m0 (cP mv) := by
            rw [← hvS]
            exact le_of_lt (lt_of_lt_of_le hvb
              (le_trans hmrb (min_le_min le_rfl hcp)))
          rw [hpull (min m0 (cP mv)), min_eq_right hxS]
          exact hvS
      · rcases lt_or_le alpha (cT mv alpha beta).1 with hgt | hS3
        · -- the child value is exact
          have hb2 : min beta (cT mv alpha beta).1 = (cT mv alpha beta).1 :=
            min_eq_right hlt0.le
          have hcp : (cT mv alpha beta).1 = cP mv :=
            (hch mv alpha beta hab).2.2 hgt hlt0
          have hinit : min m0 (cP mv) = min m0 (cT mv alpha beta).1 := by
            rw [← hcp]
          have ihh := ih (min m0 (cT mv alpha beta).1) none
            alpha (min beta (cT mv alpha beta).1) 0 hab2
            (min_le_min hm0 le_rfl)
          rw [hb2] at ihh ⊢
          rw [hinit]
          refine ⟨fun hva => ihh.1 hva, fun hbv => ihh.2.1
            (le_trans hlt0.le hbv), fun hav hvb => ?_⟩
          have hle := minLoop_val_le cT rest (min m0 (cT mv alpha beta).1) none
            alpha (cT mv alpha beta).1 0
          have hvr1 : (minLoop true cT rest
              (min m0 (cT mv alpha beta).1, none)
              alpha (cT mv alpha beta).1 0).1 ≤ (cT mv alpha beta).1 :=
            le_trans hle (min_le_right m0 _)
          rcases lt_or_eq_of_le hvr1 with hlt2 | heq
          · exact ihh.2.2 hav hlt2
          · have hrv : (cT mv alpha beta).1 ≤ (minLoop true cT rest
                (min m0 (cT mv alpha beta).1, none)
                alpha (cT mv alpha beta).1 0).1 :=
              heq.ge
            refine le_antisymm (ihh.2.1 hrv) ?_
            calc List.foldl (fun x mv => min x (cP mv))
                  (min m0 (cT mv alpha beta).1) rest
                ≤ min m0 (cT mv alpha beta).1 :=
                  foldl_min_init_ge cP rest _
              _ ≤ (cT mv alpha beta).1 := min_le_right _ _
              _ ≤ (minLoop true cT rest (min m0 (cT mv alpha beta).1, none)
                    alpha (cT mv alpha beta).1 0).1 := hrv
        · exact absurd (le_trans (min_le_right beta _) hS3) hbr

end MinLoopFailSoft

section PlainLoops

variable (child : Move → Score → Score → Score × Nat)

lemma maxLoop_false_val (l : List Move) :
    ∀ (acc : Score × Option Move) (alpha beta : Score) (n : Nat),
      (maxLoop false child l acc alpha beta n).1 =
        List.foldl (fun x mv => max x ((child mv alpha beta).1)) acc.1 l := by
  induction l with
  | nil => intro acc alpha beta n; rfl
  | cons mv rest ih =>
    intro acc alpha beta n
    have hstep : maxLoop false child (mv :: rest) acc alpha beta n =
        maxLoop false child rest
          (if acc.1 < (child mv alpha beta).1
           then ((child mv alpha beta).1, some mv) else acc)
          alpha beta (n + (child mv alpha beta).2) := rfl
    rw [hstep, ih]
    simp only [List.foldl_cons]
    congr 1
    by_cases hup : acc.1 < (child mv alpha beta).1
    · simp [hup, max_eq_right hup.le]
    · simp [hup, max_eq_left (not_lt.mp hup)]

lemma minLoop_false_val (l : List Move) :
    ∀ (acc : Score × Option Move) (alpha beta : Score) (n : Nat),
      (minLoop false child l acc alpha beta n).1 =
        List.foldl (fun x mv => min x ((child mv alpha beta).1)) acc.1 l := by
  induction l with
  | nil => intro acc alpha beta n; rfl
  | cons mv rest ih =>
    intro acc alpha beta n
    have hstep : minLoop false child (mv :: rest) acc alpha beta n =
        minLoop false child rest
          (if (child mv alpha beta).1 < acc.1
           then ((child mv alpha beta).1, some mv) else acc)
          alpha beta (n + (child mv alpha beta).2) := rfl
    rw [hstep, ih]
    simp only [List.foldl_cons]
    congr 1
    by_cases hup : (child mv alpha beta).1 < acc.1
    · simp [hup, min_eq_right hup.le]
    · simp [hup, min_eq_left (not_lt.mp hup)]

lemma maxLoop_false_nodes (l : List Move) :
    ∀ (acc : Score × Option Move) (alpha beta : Score) (n : Nat),
      (maxLoop false child l acc alpha beta n).2.2 =
        n + (l.map (fun mv => (child mv alpha beta).2)).sum := by
  induction l with
  | nil => intro acc alpha beta n; simp [maxLoop]
  | cons mv rest ih =>
    intro acc alpha beta n
    have hstep : maxLoop false child (mv :: rest) acc alpha beta n =
        maxLoop false child rest
          (if acc.1 < (child mv alpha beta).1
           then ((child mv alpha beta).1, some mv) else acc)
          alpha beta (n + (child mv alpha beta).2) := rfl
    rw [hstep, ih]
    simp [List.map_cons, List.sum_cons]
    omega

lemma minLoop_false_nodes (l : List Move) :
    ∀ (acc : Score × Option Move) (alpha beta : Score) (n : Nat),
      (minLoop false child l acc alpha beta n).2.2 =
        n + (l.map (fun mv => (child mv alpha beta).2)).sum := by
  induction l with
  | nil => intro acc alpha beta n; simp [minLoop]
  | cons mv rest ih =>
    intro acc alpha beta n
    have hstep : minLoop false child (mv :: rest) acc alpha beta n =
        minLoop false child rest
          (if (child mv alpha beta).1 < acc.1
           then ((child mv alpha beta).1, some mv) else acc)
          alpha beta (n + (child mv alpha beta).2) := rfl
    rw [hstep, ih]
    simp [List.map_cons, List.sum_cons]
    omega

lemma maxLoop_true_nodes_le (pn : Move → Nat)
    (hch : ∀ mv alpha beta, (child mv alpha beta).2 ≤ pn mv) (l : List Move) :
    ∀ (acc : Score × Option Move) (alpha beta : Score) (n : Nat),
      (maxLoop true child l acc alpha beta n).2.2 ≤ n + (l.map pn).sum := by
  induction l with
  | nil => intro acc alpha beta n; simp [maxLoop]
  | cons mv rest ih =>
    intro acc alpha beta n
    rw [maxLoop_cons]
    have hc := hch mv alpha beta
    by_cases hbr : beta ≤ max alpha (child mv alpha beta).1
    · rw [if_pos hbr]
      simp only [List.map_cons, List.sum_cons]
      omega
    · rw [if_neg hbr]
      have := ih (if acc.1 < (child mv alpha beta).1
          then ((child mv alpha beta).1, some mv) else acc)
        (max alpha (child mv alpha beta).1) beta (n + (child mv alpha beta).2)
      simp only [List.map_cons, List.sum_cons]
      omega

lemma minLoop_true_nodes_le (pn : Move → Nat)
    (hch : ∀ mv alpha beta, (child mv alpha beta).2 ≤ pn mv) (l : List Move) :
    ∀ (acc : Score × Option Move) (alpha beta : Score) (n : Nat),
      (minLoop true child l acc alpha beta n).2.2 ≤ n + (l.map pn).sum := by
  induction l with
  | nil => intro acc alpha beta n; simp [minLoop]
  | cons mv rest ih =>
    intro acc alpha beta n
    rw [minLoop_cons]
    have hc := hch mv alpha beta
    by_cases hbr : min beta (child mv alpha beta).1 ≤ alpha
    · rw [if_pos hbr]
      simp only [List.map_cons, List.sum_cons]
      omega
    · rw [if_neg hbr]
      have := ih (if (child mv alpha beta).1 < acc.1
          then ((child mv alpha beta).1, some mv) else acc)
        alpha (min beta (child mv alpha beta).1) (n + (child mv alpha beta).2)
      simp only [List.map_cons, List.sum_cons]
      omega

end PlainLoops

section MinimaxUnfold

variable (ab : Bool) (h : GameState → Color → Int) (mt : Int) (t : Color)

lemma minimax_succ_over (d : Nat) (s : GameState) (isMax : Bool)
    (alpha beta : Score) (hr : s.game_over_reason ≠ "") :
    minimax ab h mt t (d + 1) s isMax alpha beta = (sval (h s t), none, 1) := by
  simp [minimax, hr]

lemma minimax_succ_max (d : Nat) (s : GameState) (alpha beta : Score)
    (hr : s.game_over_reason = "") :
    minimax ab h mt t (d + 1) s true alpha beta =
      maxLoop ab (fun mv a b =>
          ((minimax ab h mt t d (make_move mt s mv) false a b).1,
           (minimax ab h mt t d (make_move mt s mv) false a b).2.2))
        (valid_moves s) (⊥, none) alpha beta 1 := by
  simp [minimax, hr]

lemma minimax_succ_min (d : Nat) (s : GameState) (alpha beta : Score)
    (hr : s.game_over_reason = "") :
    minimax ab h mt t (d + 1) s false alpha beta =
      minLoop ab (fun mv a b =>
          ((minimax ab h mt t d (make_move mt s mv) true a b).1,
           (minimax ab h mt t d (make_move mt s mv) true a b).2.2))
        (valid_moves s) (⊤, none) alpha beta 1 := by
  simp [minimax, hr]

end MinimaxUnfold

lemma minimax_fail_soft (h : GameState → Color → Int) (mt : Int) (t : Color) :
    ∀ (d : Nat) (s : GameState) (isMax : Bool) (alpha beta : Score),
      alpha < beta →
      (((minimax true h mt t d s isMax alpha beta).1 ≤ alpha →
        (minimax false h mt t d s isMax ⊥ ⊤).1 ≤
          (minimax true h mt t d s isMax alpha beta).1) ∧
      (beta ≤ (minimax true h mt t d s isMax alpha beta).1 →
        (minimax true h mt t d s isMax alpha beta).1 ≤
          (minimax false h mt t d s isMax ⊥ ⊤).1) ∧
      (alpha < (minimax true h mt t d s isMax alpha beta).1 →
        (minimax true h mt t d s isMax alpha beta).1 < beta →
        (minimax true h mt t d s isMax alpha beta).1 =
          (minimax false h mt t d s isMax ⊥ ⊤).1)) := by
  intro d
  induction d with
  | zero =>
    intro s isMax alpha beta hab
    exact ⟨fun _ => le_rfl, fun _ => le_rfl, fun _ _ => rfl⟩
  | succ d ih =>
    intro s isMax alpha beta hab
    by_cases hr : s.game_over_reason = ""
    · cases isMax
      · rw [minimax_succ_min true h mt t d s alpha beta hr,
          minimax_succ_min false h mt t d s ⊥ ⊤ hr, minLoop_false_val]
        exact minLoop_fail_soft
          (fun mv a b =>
            ((minimax true h mt t d (make_move mt s mv) true a b).1,
             (minimax true h mt t d (make_move mt s mv) true a b).2.2))
          (fun mv => (minimax false h mt t d (make_move mt s mv) true ⊥ ⊤).1)
          (fun mv a b hab2 => ih (make_move mt s mv) true a b hab2)
          (valid_moves s) ⊤ none alpha beta 1 hab le_top
      · rw [minimax_succ_max true h mt t d s alpha beta hr,
          minimax_succ_max false h mt t d s ⊥ ⊤ hr, maxLoop_false_val]
        exact maxLoop_fail_soft
          (fun mv a b =>
            ((minimax true h mt t d (make_move mt s mv) false a b).1,
             (minimax true h mt t d (make_move mt s mv) false a b).2.2))
          (fun mv => (minimax false h mt t d (make_move mt s mv) false ⊥ ⊤).1)
          (fun mv a b hab2 => ih (make_move mt s mv) false a b hab2)
          (valid_moves s) ⊥ none alpha beta 1 hab bot_le
    · rw [minimax_succ_over true h mt t d s isMax alpha beta hr,
        minimax_succ_over false h mt t d s isMax ⊥ ⊤ hr]
      exact ⟨fun _ => le_rfl, fun _ => le_rfl, fun _ _ => rfl⟩

lemma minimax_alphabeta_value (h : GameState → Color → Int) (mt : Int)
    (t : Color) (d : Nat) (s : GameState) (isMax : Bool) :
    (minimax true h mt t d s isMax ⊥ ⊤).1 =
      (minimax false h mt t d s isMax ⊥ ⊤).1 := by
  have hab : (⊥ : Score) < ⊤ := bot_lt_top
  have hfs := minimax_fail_soft h mt t d s isMax ⊥ ⊤ hab
  rcases le_or_lt (minimax true h mt t d s isMax ⊥ ⊤).1 ⊥ with hb | hb
  · rw [le_bot_iff.mp hb, le_bot_iff.mp (le_trans (hfs.1 hb) hb)]
  · rcases le_or_lt ⊤ (minimax true h mt t d s isMax ⊥ ⊤).1 with ht | ht
    · rw [top_le_iff.mp ht, top_le_iff.mp (le_trans ht (hfs.2.1 ht))]
    · exact hfs.2.2 hb ht

lemma minimax_alphabeta_nodes (h : GameState → Color → Int) (mt : Int)
    (t : Color) :
    ∀ (d : Nat) (s : GameState) (isMax : Bool) (alpha beta : Score),
      (minimax true h mt t d s isMax alpha beta).2.2 ≤
        (minimax false h mt t d s isMax ⊥ ⊤).2.2 := by
  intro d
  induction d with
  | zero => intro s isMax alpha beta; exact le_rfl
  | succ d ih =>
    intro s isMax alpha beta
    by_cases hr : s.game_over_reason = ""
    · cases isMax
      · rw [minimax_succ_min true h mt t d s alpha beta hr,
          minimax_succ_min false h mt t d s ⊥ ⊤ hr, minLoop_false_nodes]
        exact minLoop_true_nodes_le
          (fun mv a b =>
            ((minimax true h mt t d (make_move mt s mv) true a b).1,
             (minimax true h mt t d (make_move mt s mv) true a b).2.2))
          (fun mv => (minimax false h mt t d (make_move mt s mv) true ⊥ ⊤).2.2)
          (fun mv a b => ih (make_move mt s mv) true a b)
          (valid_moves s) (⊤, none) alpha beta 1
      · rw [minimax_succ_max true h mt t d s alpha beta hr,
          minimax_succ_max false h mt t d s ⊥ ⊤ hr, maxLoop_false_nodes]
        exact maxLoop_true_nodes_le
          (fun mv a b =>
            ((minimax true h mt t d (make_move mt s mv) false a b).1,
             (minimax true h mt t d (make_move mt s mv) false a b).2.2))
          (fun mv => (minimax false h mt t d (make_move mt s mv) false ⊥ ⊤).2.2)
          (fun mv a b => ih (make_move mt s mv) false a b)
          (valid_moves s) (⊥, none) alpha beta 1
    · rw [minimax_succ_over true h mt t d s isMax alpha beta hr,
        minimax_succ_over false h mt t d s isMax ⊥ ⊤ hr]

/-- C1: for every game state, depth, evaluator and turn-limit, the search
run with alpha-beta pruning enabled returns the same score as plain
minimax run to the same depth with the same evaluator and no timeout
(both started, as at the root of the Python search, with
`alpha = -∞, beta = +∞` and `is_max = True`), and the total number of
nodes visited with pruning is at most the number visited without it; the
claim's side conditions (depth at least 2, at least 2 legal replies) are
carried as hypotheses. -/
theorem alphabeta_equals_plain_minimax (h : GameState → Color → Int)
    (mt : Int) (t : Color) (s : GameState) (d : Nat) (hd : 2 ≤ d)
    (hreplies : 2 ≤ (valid_moves s).length) :
    (minimax true h mt t d s true ⊥ ⊤).1 =
      (minimax false h mt t d s true ⊥ ⊤).1 ∧
    (minimax true h mt t d s true ⊥ ⊤).2.2 ≤
      (minimax false h mt t d s true ⊥ ⊤).2.2 :=
  ⟨minimax_alphabeta_value h mt t d s true,
   minimax_alphabeta_nodes h mt t d s true ⊥ ⊤⟩

/-- Witness for C1: the initial position at depth 2 with the material
evaluator. -/
theorem alphabeta_equals_plain_minimax_witness :
    2 ≤ 2 ∧ 2 ≤ (valid_moves init_board).length ∧
      ((minimax true e0 100 .white 2 init_board true ⊥ ⊤).1 =
        (minimax false e0 100 .white 2 init_board true ⊥ ⊤).1 ∧
      (minimax true e0 100 .white 2 init_board true ⊥ ⊤).2.2 ≤
        (minimax false e0 100 .white 2 init_board true ⊥ ⊤).2.2) :=
  ⟨le_rfl, by decide,
   alphabeta_equals_plain_minimax e0 100 .white init_board 2 le_rfl (by decide)⟩

end MiniChess
